import Mathlib

/-!
Verification development for the chmAI chemistry engine
(`backend/chemistry_engine/reaction_engine.py`).

Strings are embedded as `List Char`; Python `float` arithmetic is embedded
as exact real arithmetic (`ℝ`), with Python's `round(x, n)` modelled as
round-half-to-even (`pyRound` below).  Python's machine integers are `ℤ`.
Fallible operations return `Except`.

The equation-balancing core delegated to the external `chempy` library is
not part of the repository sources; it is modelled from the specification
(§4.1–§4.3): exact-fraction Gaussian elimination over the element ×
species matrix, lcm/gcd normalisation to a minimal positive integer
vector.  The exact fractions are kept as unnormalised numerator /
denominator pairs of integers (`Frac`); their rational value is the
specification-side denotation used in proofs.
-/

namespace ChmAI

/-! ### Characters and Python string operations -/

/-- Whitespace characters stripped by Python's `str.strip()`. -/
def isSpace (c : Char) : Bool :=
  c = ' ' || c = '\t' || c = '\n' || c = '\x0d' || c.toNat = 11 || c.toNat = 12

/-- Python `s.split(sep)` for a one-character separator: split at every
occurrence, keeping empty pieces (so `"".split` gives one empty piece). -/
def splitOnChar (sep : Char) : List Char → List (List Char)
  | [] => [[]]
  | c :: cs =>
    let r := splitOnChar sep cs
    if c = sep then [] :: r
    else
      match r with
      | [] => [[c]]
      | p :: ps => (c :: p) :: ps

/-- Python `str.strip()`: drop whitespace from both ends. -/
def stripChars (l : List Char) : List Char :=
  (((l.dropWhile isSpace).reverse).dropWhile isSpace).reverse

/-- Decimal digits of a natural number, most significant first
(Python `str(n)` for `n ≥ 0`); fuel-structural so the kernel can reduce it. -/
def natDigitsAux : ℕ → ℕ → List Char → List Char
  | 0, _, acc => acc
  | f + 1, n, acc =>
    if n < 10 then Char.ofNat (48 + n % 10) :: acc
    else natDigitsAux f (n / 10) (Char.ofNat (48 + n % 10) :: acc)

def natDigits (n : ℕ) : List Char := natDigitsAux (n + 1) n []

/-! ### Error taxonomy (spec §7) -/

inductive ChemErr where
  | parseError
  | structuralError
  | unbalanceableError
  | ambiguousError
  deriving DecidableEq

/-! ### Formula scanner

Modelled from the spec (§4.1 FormulaParser, missing from the sources —
the repository delegates formula parsing to the external `chempy`
library): left-to-right scan, capital letter + optional lowercase letter
= element symbol checked against a known element table, following digits
= count (default 1), parenthesised/bracketed subgroups with a trailing
multiplier, repeated symbols accumulate, whitespace ignored; anything
else (unrecognised symbol, unmatched bracket, dangling multiplier,
charge/isotope/hydrate syntax, an empty formula) is a `parseError`. -/

/-- The known element table (the 118 IUPAC element symbols). -/
def elemTable : List (List Char) :=
  ["H", "He", "Li", "Be", "B", "C", "N", "O", "F", "Ne",
   "Na", "Mg", "Al", "Si", "P", "S", "Cl", "Ar", "K", "Ca",
   "Sc", "Ti", "V", "Cr", "Mn", "Fe", "Co", "Ni", "Cu", "Zn",
   "Ga", "Ge", "As", "Se", "Br", "Kr", "Rb", "Sr", "Y", "Zr",
   "Nb", "Mo", "Tc", "Ru", "Rh", "Pd", "Ag", "Cd", "In", "Sn",
   "Sb", "Te", "I", "Xe", "Cs", "Ba", "La", "Ce", "Pr", "Nd",
   "Pm", "Sm", "Eu", "Gd", "Tb", "Dy", "Ho", "Er", "Tm", "Yb",
   "Lu", "Hf", "Ta", "W", "Re", "Os", "Ir", "Pt", "Au", "Hg",
   "Tl", "Pb", "Bi", "Po", "At", "Rn", "Fr", "Ra", "Ac", "Th",
   "Pa", "U", "Np", "Pu", "Am", "Cm", "Bk", "Cf", "Es", "Fm",
   "Md", "No", "Lr", "Rf", "Db", "Sg", "Bh", "Hs", "Mt", "Ds",
   "Rg", "Cn", "Nh", "Fl", "Mc", "Lv", "Ts", "Og"].map String.data

/-- Element → count mapping of one chemical formula, in first-seen order. -/
abbrev Counts := List (List Char × ℕ)

/-- Add `k` to the accumulated count of symbol `s` (append if new). -/
def addCount : Counts → List Char → ℕ → Counts
  | [], s, k => [(s, k)]
  | (t, m) :: rest, s, k =>
    if t = s then (t, m + k) :: rest else (t, m) :: addCount rest s k

def mergeCounts (a b : Counts) : Counts :=
  b.foldl (fun acc p => addCount acc p.1 p.2) a

def scaleCounts (k : ℕ) (a : Counts) : Counts :=
  a.map (fun p => (p.1, p.2 * k))

/-- Read a run of decimal digits (accumulator form). -/
def digitRun : List Char → ℕ → ℕ × List Char
  | [], acc => (acc, [])
  | c :: cs, acc =>
    if c.isDigit then digitRun cs (acc * 10 + (c.toNat - 48)) else (acc, c :: cs)

/-- Trailing count after a symbol or group: digits if present, else 1. -/
def readCount (l : List Char) : ℕ × List Char :=
  match l with
  | c :: _ => if c.isDigit then digitRun l 0 else (1, l)
  | [] => (1, l)

def closerFor (c : Char) : Char := if c = '(' then ')' else ']'

/-- Scan a formula segment until the closing bracket (or the end when
`closer = none`); returns the accumulated counts and the unread rest.
Every scanner failure is the spec's `ParseError`, so failure is `none`. -/
def scanSeq : ℕ → List Char → Option Char → Option (Counts × List Char)
  | 0, _, _ => none
  | fuel + 1, cs, closer =>
    match cs with
    | [] =>
      match closer with
      | none => some ([], [])
      | some _ => none
    | c :: rest =>
      if isSpace c then scanSeq fuel rest closer
      else if closer = some c then some ([], rest)
      else if c.isUpper then
        let sp : List Char × List Char :=
          match rest with
          | d :: rest2 => if d.isLower then ([c, d], rest2) else ([c], rest)
          | [] => ([c], [])
        if elemTable.contains sp.1 then
          let kr := readCount sp.2
          if kr.1 = 0 then none
          else
            match scanSeq fuel kr.2 closer with
            | some (counts, rem) => some (mergeCounts [(sp.1, kr.1)] counts, rem)
            | none => none
        else none
      else if c = '(' || c = '[' then
        match scanSeq fuel rest (some (closerFor c)) with
        | some (inner, rem) =>
          let kr := readCount rem
          if kr.1 = 0 then none
          else
            match scanSeq fuel kr.2 closer with
            | some (counts, rem2) => some (mergeCounts (scaleCounts kr.1 inner) counts, rem2)
            | none => none
        | none => none
      else none

/-- `FormulaParser.parse` (spec §4.1); an empty element mapping (empty or
all-whitespace text) is not a species, hence a failure (`ParseError`). -/
def parseFormula (l : List Char) : Option Counts :=
  match scanSeq (l.length + 1) l none with
  | none => none
  | some (counts, _) => if counts = [] then none else some counts

/-- Parse every species of one side, keeping the species names. -/
def parseForms : List (List Char) → Option (List (List Char × Counts))
  | [] => some []
  | s :: rest =>
    match parseFormula s with
    | none => none
    | some f =>
      match parseForms rest with
      | none => none
      | some fs => some ((s, f) :: fs)

/-! ### Equation splitting and the stoichiometric matrix -/

/-- First-seen deduplication (Python `set(...)` determinised to insertion
order). -/
def dedupAux (seen : List (List Char)) : List (List Char) → List (List Char)
  | [] => []
  | s :: rest =>
    if seen.contains s then dedupAux seen rest
    else s :: dedupAux (s :: seen) rest

def dedupKeepFirst (l : List (List Char)) : List (List Char) := dedupAux [] l

/-- `[x.strip() for x in side.split('+')]` from `balance_equation`. -/
def speciesOf (side : List Char) : List (List Char) :=
  (splitOnChar '+' side).map stripChars

/-- Elements appearing in a list of parsed formulas, first-seen order. -/
def elemsOfForms (fs : List (List Char × Counts)) : List (List Char) :=
  dedupKeepFirst ((fs.map (fun p => p.2.map Prod.fst)).flatten)

def countIn : Counts → List Char → ℕ
  | [], _ => 0
  | (s, k) :: rest, e => if s = e then k else countIn rest e

/-- The element × species system built from an equation string
(spec §4.2 StoichiometricMatrixBuilder, modelled from the spec): one row
per element, reactant columns hold the atom counts, product columns the
negated counts; differing element sets give a `structuralError`.  The
equation text itself is split on `=` into exactly two sides and each side
on `+`, as in `balance_equation` (reaction_engine.py lines 30–33). -/
structure EqSystemZ where
  reacs : List (List Char × Counts)
  prods : List (List Char × Counts)
  elems : List (List Char)
  matrix : List (List ℤ)
  deriving DecidableEq

/-- Deduplicated stripped species names of one side. -/
def sideNames (side : List Char) : List (List Char) := dedupKeepFirst (speciesOf side)

/-- Matrix row of one element: atom counts over reactant columns, negated
atom counts over product columns. -/
def rowFor (reacs prods : List (List Char × Counts)) (e : List Char) : List ℤ :=
  reacs.map (fun p => (countIn p.2 e : ℤ)) ++ prods.map (fun p => -(countIn p.2 e : ℤ))

/-- Row order: elements of both sides in first-seen order. -/
def eqElems (reacs prods : List (List Char × Counts)) : List (List Char) :=
  dedupKeepFirst (elemsOfForms reacs ++ elemsOfForms prods)

/-- The two-sides part of the system builder. -/
def buildSystemSides (ls rs : List Char) : Except ChemErr EqSystemZ :=
  match parseForms (sideNames ls) with
  | none => .error .parseError
  | some reacs =>
    match parseForms (sideNames rs) with
    | none => .error .parseError
    | some prods =>
      if (elemsOfForms reacs).all (fun e => (elemsOfForms prods).contains e) &&
          (elemsOfForms prods).all (fun e => (elemsOfForms reacs).contains e) then
        .ok ⟨reacs, prods, eqElems reacs prods,
          (eqElems reacs prods).map (rowFor reacs prods)⟩
      else .error .structuralError

def buildSystem (s : List Char) : Except ChemErr EqSystemZ :=
  match splitOnChar '=' s with
  | [ls, rs] => buildSystemSides ls rs
  | _ => .error .parseError

/-! ### Exact fractions

Unnormalised integer fractions with a nonzero denominator; `Frac.val` is
the rational they denote (used only in proofs). -/

def Frac := { p : ℤ × ℤ // p.2 ≠ 0 }

instance : DecidableEq Frac := fun a b =>
  decidable_of_iff (a.1 = b.1) Subtype.ext_iff.symm

def Frac.num (f : Frac) : ℤ := f.1.1
def Frac.den (f : Frac) : ℤ := f.1.2

def Frac.val (f : Frac) : ℚ := (f.num : ℚ) / (f.den : ℚ)

def fz : Frac := ⟨(0, 1), one_ne_zero⟩
def fone : Frac := ⟨(1, 1), one_ne_zero⟩
def fofInt (z : ℤ) : Frac := ⟨(z, 1), one_ne_zero⟩
def fmul (a b : Frac) : Frac := ⟨(a.num * b.num, a.den * b.den), mul_ne_zero a.2 b.2⟩
def fsub (a b : Frac) : Frac :=
  ⟨(a.num * b.den - b.num * a.den, a.den * b.den), mul_ne_zero a.2 b.2⟩
def fneg (a : Frac) : Frac := ⟨(-a.num, a.den), a.2⟩
def finv (a : Frac) (h : a.num ≠ 0) : Frac := ⟨(a.den, a.num), h⟩

/-! ### Exact-fraction Gaussian elimination (spec §4.3, modelled from the
spec — the repository delegates this to `chempy.balance_stoichiometry`).

State: `done` holds the processed pivot rows with their pivot column,
`rest` the still-unprocessed rows, `freeCols` the columns found free so
far.  One `gaussStep` processes one column. -/

def getF (r : List Frac) (j : ℕ) : Frac := r.getD j fz

def scaleRow (c : Frac) (r : List Frac) : List Frac := r.map (fun a => fmul c a)

/-- Subtract `s[j] ·` (pivot row `p`) from `s`, clearing column `j`. -/
def elimRow (j : ℕ) (p : List Frac) (s : List Frac) : List Frac :=
  List.zipWith fsub s (scaleRow (getF s j) p)

/-- First row with a nonzero entry in column `j`, together with the
remaining rows in order. -/
def pickPivot (j : ℕ) : List (List Frac) → Option (List Frac × List (List Frac))
  | [] => none
  | r :: rs =>
    if (getF r j).num ≠ 0 then some (r, rs)
    else
      match pickPivot j rs with
      | none => none
      | some (p, rest) => some (p, r :: rest)

structure GState where
  done : List (List Frac × ℕ)
  rest : List (List Frac)
  freeCols : List ℕ

/-- The state after pivoting on row `p` (already normalised) at column
`j`: clear column `j` from the processed rows and the remaining rows,
record `p` as the pivot row of column `j`. -/
def gaussNewState (j : ℕ) (st : GState) (p : List Frac)
    (others : List (List Frac)) : GState :=
  { done := (st.done.map (fun rc => (elimRow j p rc.1, rc.2))) ++ [(p, j)],
    rest := others.map (elimRow j p),
    freeCols := st.freeCols }

/-- The pivoting branch of one elimination step: normalise the pivot row
to leading value 1 and clear column `j` from every other row. -/
def gaussPivStep (j : ℕ) (st : GState) (r : List Frac) (others : List (List Frac)) :
    GState :=
  if h : (getF r j).num ≠ 0 then
    gaussNewState j st (scaleRow (finv (getF r j) h) r) others
  else st

def gaussStep (j : ℕ) (st : GState) : GState :=
  match pickPivot j st.rest with
  | none => { st with freeCols := st.freeCols ++ [j] }
  | some (r, others) => gaussPivStep j st r others

def gaussFuel : ℕ → ℕ → GState → GState
  | 0, _, st => st
  | f + 1, j, st => gaussFuel f (j + 1) (gaussStep j st)

/-! ### Null-space vector, integerisation, minimality (spec §4.3) -/

def pivotLookup (done : List (List Frac × ℕ)) (c : ℕ) : Option (List Frac × ℕ) :=
  done.find? (fun rc => rc.2 == c)

/-- Basis vector of the one-dimensional null space: 1 at the single free
column `f`, `-(pivot row entry at f)` at each pivot column. -/
def kernelVec (n f : ℕ) (done : List (List Frac × ℕ)) : List Frac :=
  (List.range n).map (fun c =>
    if c = f then fone
    else
      match pivotLookup done c with
      | some rc => fneg (getF rc.1 f)
      | none => fz)

def denLcm (x : List Frac) : ℕ := x.foldr (fun q l => Nat.lcm q.den.natAbs l) 1

/-- Scale a fraction by the denominator lcm `L`, yielding an integer. -/
def intOfFrac (L : ℕ) (q : Frac) : ℤ := q.num * ((L : ℤ) / q.den)

def gcdL : List ℤ → ℕ := List.foldr (fun z a => Int.gcd z (a : ℤ)) 0

/-- Scale the rational kernel vector by the lcm of its denominators,
producing an all-integer vector. -/
def scaledInts (x : List Frac) : List ℤ := x.map (intOfFrac (denLcm x))

/-- Divide the integer vector by the gcd of its entries (the minimal
integer solution). -/
def primitiveVec (x : List Frac) : List ℤ :=
  (scaledInts x).map (fun z => z / (gcdL (scaledInts x) : ℤ))

/-- Negate the whole vector when a sign is inconsistent with its
reactant/product role (all coefficients must come out positive). -/
def signFixed (c : List ℤ) : List ℤ :=
  if c.any (fun z => decide (z < 0)) then c.map Neg.neg else c

def runGauss (mat : List (List ℤ)) (n : ℕ) : GState :=
  gaussFuel n 0 ⟨[], mat.map (fun row => row.map fofInt), []⟩

/-- Solve the homogeneous system for the minimal positive integer
coefficient vector: trivial null space (no free column) or a vector that
cannot be made all-positive is `unbalanceableError` (no positive
coefficient assignment balances the equation, spec §4.3/§7); null-space
dimension above one is reported as `ambiguousError` (the documented
tie-break choice for the spec's open question §9). -/
def solveCoeffs (mat : List (List ℤ)) (n : ℕ) : Except ChemErr (List ℤ) :=
  match (runGauss mat n).freeCols with
  | [] => .error .unbalanceableError
  | [f] =>
    if (signFixed (primitiveVec (kernelVec n f (runGauss mat n).done))).all
        (fun z => decide (0 < z)) then
      .ok (signFixed (primitiveVec (kernelVec n f (runGauss mat n).done)))
    else .error .unbalanceableError
  | _ => .error .ambiguousError

/-! ### `balance_equation` (reaction_engine.py lines 18–69) -/

structure BalancedCore where
  reacs : List (List Char × ℤ)
  prods : List (List Char × ℤ)
  rendered : List Char
  deriving DecidableEq

/-- The separator the source places between the rendered sides
(`" â†’ "`, reaction_engine.py line 52; written by code points). -/
def arrowSep : List Char := [' ', Char.ofNat 226, Char.ofNat 8224, Char.ofNat 8217, ' ']

/-- `f"{coef if coef > 1 else ''}{formula}"` joined by `' + '`. -/
def renderSide (side : List (List Char × ℤ)) : List Char :=
  List.intercalate (' ' :: '+' :: [' '])
    (side.map (fun p => (if p.2 > 1 then natDigits p.2.toNat else []) ++ p.1))

def balanceCore (s : List Char) : Except ChemErr BalancedCore :=
  match buildSystem s with
  | .error e => .error e
  | .ok sys =>
    match solveCoeffs sys.matrix (sys.reacs.length + sys.prods.length) with
    | .error e => .error e
    | .ok cs =>
      .ok ⟨List.zip (sys.reacs.map Prod.fst) (cs.take sys.reacs.length),
        List.zip (sys.prods.map Prod.fst) (cs.drop sys.reacs.length),
        renderSide (List.zip (sys.reacs.map Prod.fst) (cs.take sys.reacs.length)) ++
          arrowSep ++
          renderSide (List.zip (sys.prods.map Prod.fst) (cs.drop sys.reacs.length))⟩

/-- The dictionary `balance_equation` returns: on success the balanced
rendering plus the coefficient mappings, on any failure the original text
with `is_balanced: False` and the error. -/
instance {ε α : Type} [DecidableEq ε] [DecidableEq α] : DecidableEq (Except ε α) :=
  fun a b =>
    match a, b with
    | .error e, .error f => decidable_of_iff (e = f) (by simp)
    | .ok x, .ok y => decidable_of_iff (x = y) (by simp)
    | .error _, .ok _ => isFalse (by simp)
    | .ok _, .error _ => isFalse (by simp)

structure BalanceResult where
  original : List Char
  balanced : List Char
  reactants : List (List Char × ℤ)
  products : List (List Char × ℤ)
  is_balanced : Bool
  error : Option ChemErr
  deriving DecidableEq

def balance_equation (s : List Char) : BalanceResult :=
  match balanceCore s with
  | .ok c => ⟨s, c.rendered, c.reacs, c.prods, true, none⟩
  | .error e => ⟨s, s, [], [], false, some e⟩

/-! ### Python float semantics: rounding, log10, error kinds

Python floats are embedded as exact reals.  `round(x, n)` is Python's
documented round-half-to-even; `math.log10` raises `ValueError` on a
non-positive argument, and float division by zero raises
`ZeroDivisionError` (both are caught by the service and turned into an
error result). -/

inductive PyErr where
  | valueError
  | zeroDivisionError
  deriving DecidableEq

open Classical in
/-- Python `round(x)`: nearest integer, ties to even. -/
noncomputable def pyRound (x : ℝ) : ℤ :=
  if x - ⌊x⌋ = 1 / 2 then (if Even ⌊x⌋ then ⌊x⌋ else ⌊x⌋ + 1) else round x

/-- Python `round(x, n)`. -/
noncomputable def pyRoundTo (n : ℕ) (x : ℝ) : ℝ := (pyRound (x * 10 ^ n) : ℝ) / 10 ^ n

open Classical in
/-- `math.log10`. -/
noncomputable def log10m (x : ℝ) : Except PyErr ℝ :=
  if x ≤ 0 then .error .valueError else .ok (Real.logb 10 x)

/-! ### `calculate_ph` (reaction_engine.py lines 173–224) -/

/-- The dictionary returned on lines 212–220: `ph` and `poh` rounded to
two places, the classification propositions computed from the unrounded
`ph` local. -/
structure PHResult where
  ph : ℝ
  poh : ℝ
  concentration : ℝ
  substance_type : String
  is_acidic : Prop
  is_basic : Prop
  is_neutral : Prop

noncomputable def mkPHResult (phv conc : ℝ) (st : String) : PHResult :=
  ⟨pyRoundTo 2 phv, pyRoundTo 2 (14 - phv), conc, st,
   phv < 7, phv > 7, 6.5 < phv ∧ phv < 7.5⟩

noncomputable def calculate_ph (concentration : ℝ) (substance_type : String)
    (pka : Option ℝ) : Except PyErr PHResult :=
  if substance_type = "strong_acid" then
    (log10m concentration).map (fun l => mkPHResult (-l) concentration substance_type)
  else if substance_type = "strong_base" then
    (log10m concentration).map (fun l => mkPHResult (14 - -l) concentration substance_type)
  else
    match substance_type, pka with
    | "weak_acid", some p =>
      (log10m concentration).map (fun l => mkPHResult (p - l) concentration substance_type)
    | "weak_base", some p =>
      (log10m concentration).map
        (fun l => mkPHResult (14 - ((14 - p) - l)) concentration substance_type)
    | _, _ => .ok (mkPHResult 7.0 concentration substance_type)

/-! ### `buffer_calculator` (reaction_engine.py lines 226–267) -/

structure BufferResult where
  target_ph : ℝ
  pka : ℝ
  acid_concentration : ℝ
  base_concentration : ℝ
  total_concentration : ℝ
  acid_base_ratio : ℝ
  /-- the `buffer_capacity` field is the string `'optimal'` exactly when
  `0.1 < ratio < 10`; modelled as that proposition. -/
  buffer_capacity_optimal : Prop

noncomputable def buffer_calculator (target_ph pka total_concentration : ℝ) :
    BufferResult :=
  let ratio := (10 : ℝ) ^ (target_ph - pka)
  let acid := total_concentration / (1 + ratio)
  let base := total_concentration - acid
  ⟨target_ph, pka, pyRoundTo 4 acid, pyRoundTo 4 base, total_concentration,
   pyRoundTo 4 ratio, 0.1 < ratio ∧ ratio < 10⟩

/-! ### `dilution_calculator` (reaction_engine.py lines 269–318) -/

structure DilutionResult where
  initial_concentration : ℝ
  initial_volume : ℝ
  final_concentration : ℝ
  final_volume : ℝ
  solvent_to_add : ℝ

open Classical in
/-- The `final_concentration is not None` branch is tried first and, when
taken, never consults `final_volume`; only when both are `None` does the
call fail (the code returns its `'Must provide either ...'` error
dictionary, modelled as `valueError`). -/
noncomputable def dilution_calculator (initial_concentration initial_volume : ℝ)
    (final_concentration final_volume : Option ℝ) : Except PyErr DilutionResult :=
  match final_concentration with
  | some c2 =>
    if c2 = 0 then .error .zeroDivisionError
    else
      .ok ⟨initial_concentration, initial_volume, c2,
        pyRoundTo 4 (initial_concentration * initial_volume / c2),
        pyRoundTo 4 (initial_concentration * initial_volume / c2 - initial_volume)⟩
  | none =>
    match final_volume with
    | some v2 =>
      if v2 = 0 then .error .zeroDivisionError
      else
        .ok ⟨initial_concentration, initial_volume,
          pyRoundTo 4 (initial_concentration * initial_volume / v2), v2,
          pyRoundTo 4 (v2 - initial_volume)⟩
    | none => .error .valueError

/-! ### `calculate_stoichiometry` (reaction_engine.py lines 71–136) -/

structure StoichResult where
  given_substance : List Char
  given_amount : ℝ
  given_coefficient : ℤ
  target_substance : List Char
  target_amount : ℝ
  target_coefficient : ℤ
  molar_ratio : ℝ
  unit : List Char

inductive StoichErr where
  | couldNotBalance
  | substanceNotFound
  deriving DecidableEq

def assocFind : List (List Char × ℤ) → List Char → Option ℤ
  | [], _ => none
  | (t, z) :: rest, s => if t = s then some z else assocFind rest s

/-- Coefficient lookup in `all_substances = {**reactants, **products}`:
product entries override reactant entries. -/
def lookupCoef (bal : BalancedCore) (s : List Char) : Option ℤ :=
  match assocFind bal.prods s with
  | some z => some z
  | none => assocFind bal.reacs s

/-- The coefficient-lookup and ratio part of `calculate_stoichiometry`. -/
noncomputable def stoichOf (bal : BalancedCore) (given_substance : List Char)
    (given_amount : ℝ) (target_substance : List Char) (unit : List Char) :
    Except StoichErr StoichResult :=
  match lookupCoef bal given_substance, lookupCoef bal target_substance with
  | some gc, some tc =>
    .ok ⟨given_substance, given_amount, gc, target_substance,
      pyRoundTo 4 (given_amount * ((tc : ℝ) / (gc : ℝ))), tc,
      pyRoundTo 4 ((tc : ℝ) / (gc : ℝ)), unit⟩
  | _, _ => .error .substanceNotFound

/-- The three unit branches of lines 115–121 all compute
`given_amount * molar_ratio` (the `'g'` branch only carries the comment
`# Would need molar masses`), so the computation is branch-independent;
the requested unit string is echoed unchanged into the result. -/
noncomputable def calculate_stoichiometry (equation given_substance : List Char)
    (given_amount : ℝ) (target_substance : List Char) (unit : List Char) :
    Except StoichErr StoichResult :=
  match balanceCore equation with
  | .error _ => .error .couldNotBalance
  | .ok bal => stoichOf bal given_substance given_amount target_substance unit

/-! ### Verification-side notions for the balancer proofs

Dot products over the integers and rationals, the rational denotation of
a state's rows, the kernel predicate, and the elimination invariant. -/

def dotZ : List ℤ → List ℤ → ℤ
  | a :: as, b :: bs => a * b + dotZ as bs
  | _, _ => 0

def dotQ : List ℚ → List ℚ → ℚ
  | a :: as, b :: bs => a * b + dotQ as bs
  | _, _ => 0

def rowVal (r : List Frac) : List ℚ := r.map Frac.val

/-- `x` annihilates every row of `rows`. -/
def KerQ (rows : List (List Frac)) (x : List ℚ) : Prop :=
  ∀ r ∈ rows, dotQ (rowVal r) x = 0

def rowsOf (st : GState) : List (List Frac) := st.done.map Prod.fst ++ st.rest

/-- Invariant of the elimination after processing columns `0..j-1`:
rows keep width `n`; every processed pivot row has value 1 at its pivot
column and 0 at the other pivot columns; unprocessed rows vanish on all
processed columns; every processed column is either free or a pivot, the
pivot columns are distinct and disjoint from the free columns. -/
structure GInv (n j : ℕ) (st : GState) : Prop where
  doneLen : ∀ rc ∈ st.done, (Prod.fst rc : List Frac).length = n
  restLen : ∀ r ∈ st.rest, r.length = n
  pivLt : ∀ rc ∈ st.done, Prod.snd rc < j
  freeLt : ∀ c ∈ st.freeCols, c < j
  pivOne : ∀ rc ∈ st.done, (getF (Prod.fst rc) (Prod.snd rc)).val = 1
  pivZero : ∀ rc ∈ st.done, ∀ rc2 ∈ st.done, Prod.snd rc ≠ Prod.snd rc2 →
    (getF (Prod.fst rc) (Prod.snd rc2)).val = 0
  restZero : ∀ r ∈ st.rest, ∀ c, c < j → (getF r c).val = 0
  cover : ∀ c, c < j → c ∈ st.freeCols ∨ c ∈ st.done.map Prod.snd
  pivNodup : (st.done.map Prod.snd).Nodup
  freeNotPiv : ∀ c ∈ st.freeCols, c ∉ st.done.map Prod.snd


/-! ## Helper lemmas: Except.map, pyRound evaluation and bounds -/

theorem exceptMap_ok {α β γ : Type} (f : α → β) (x : Except γ α) (r : β)
    (h : x.map f = .ok r) : ∃ a, x = .ok a ∧ r = f a := by
  cases x with
  | error e => simp [Except.map] at h
  | ok a => exact ⟨a, rfl, by simpa [Except.map] using h.symm⟩

theorem pyRound_intCast (n : ℤ) : pyRound (n : ℝ) = n := by
  unfold pyRound
  rw [Int.floor_intCast, sub_self, if_neg (by norm_num), round_intCast]

theorem pyRoundTo_ofInt (k : ℕ) (m : ℤ) (x : ℝ) (h : x * 10 ^ k = (m : ℝ)) :
    pyRoundTo k x = (m : ℝ) / 10 ^ k := by
  unfold pyRoundTo
  rw [h, pyRound_intCast]

theorem pyRound_down (x : ℝ) (m : ℤ) (h1 : (m : ℝ) ≤ x) (h2 : x < (m : ℝ) + 1 / 2) :
    pyRound x = m := by
  have hf : ⌊x⌋ = m := Int.floor_eq_iff.mpr ⟨h1, by linarith⟩
  unfold pyRound
  rw [hf, if_neg (show ¬x - (m : ℝ) = 1 / 2 by intro heq; linarith), round_eq]
  exact Int.floor_eq_iff.mpr ⟨by linarith, by linarith⟩

theorem pyRound_up (x : ℝ) (m : ℤ) (h1 : (m : ℝ) + 1 / 2 < x) (h2 : x < (m : ℝ) + 1) :
    pyRound x = m + 1 := by
  have hf : ⌊x⌋ = m := Int.floor_eq_iff.mpr ⟨by linarith, by linarith⟩
  unfold pyRound
  rw [hf, if_neg (show ¬x - (m : ℝ) = 1 / 2 by intro heq; linarith), round_eq]
  exact Int.floor_eq_iff.mpr ⟨by push_cast; linarith, by push_cast; linarith⟩

theorem pyRound_nonneg (x : ℝ) (h : 0 ≤ x) : 0 ≤ pyRound x := by
  unfold pyRound
  split
  · split
    · exact Int.floor_nonneg.mpr h
    · have := Int.floor_nonneg.mpr h; omega
  · rw [round_eq]; exact Int.floor_nonneg.mpr (by linarith)

theorem abs_pyRound_sub (x : ℝ) : |(pyRound x : ℝ) - x| ≤ 1 / 2 := by
  unfold pyRound
  split
  · rename_i hhalf
    split
    · rw [abs_sub_comm, show x - (⌊x⌋ : ℝ) = 1 / 2 from hhalf,
        abs_of_pos (show (0 : ℝ) < 1 / 2 by norm_num)]
    · rw [show ((⌊x⌋ + 1 : ℤ) : ℝ) - x = 1 - (x - (⌊x⌋ : ℝ)) by push_cast; ring, hhalf,
        show (1 : ℝ) - 1 / 2 = 1 / 2 by norm_num,
        abs_of_pos (show (0 : ℝ) < 1 / 2 by norm_num)]
  · rw [abs_sub_comm]; exact abs_sub_round x

theorem pyRoundTo_nonneg (k : ℕ) (x : ℝ) (h : 0 ≤ x) : 0 ≤ pyRoundTo k x := by
  unfold pyRoundTo
  have h10 : (0 : ℝ) < 10 ^ k := by positivity
  have := pyRound_nonneg (x * 10 ^ k) (by positivity)
  positivity

theorem abs_pyRoundTo_sub (k : ℕ) (x : ℝ) : |pyRoundTo k x - x| ≤ 1 / 2 / 10 ^ k := by
  have h10 : (0 : ℝ) < 10 ^ k := by positivity
  have hb := abs_pyRound_sub (x * 10 ^ k)
  have key : pyRoundTo k x - x = ((pyRound (x * 10 ^ k) : ℝ) - x * 10 ^ k) / 10 ^ k := by
    unfold pyRoundTo
    rw [sub_div]
    congr 1
    rw [mul_div_assoc, div_self (ne_of_gt h10), mul_one]
  rw [key, abs_div, abs_of_pos h10]
  gcongr

/-! ## C4: domain errors of calculate_ph -/

/-- C4 counterexample: contrary to the claim, a weak-acid call with the
required pKa missing does not fail with a domain error — the branch guard
`substance_type == 'weak_acid' and pka is not None` fails and the code
falls through to the neutral default, returning `ph = 7.0`. -/
theorem calculate_ph_missing_pka_ok :
    calculate_ph 0.5 "weak_acid" none = .ok (mkPHResult 7.0 0.5 "weak_acid") := by
  unfold calculate_ph
  rw [if_neg (by decide), if_neg (by decide)]
  rfl

/-- C4 amended: calculate_ph fails (the caught `math domain error` from
`math.log10`) exactly when a logarithm-taking branch receives a
concentration ≤ 0 — kinds strong_acid and strong_base, and the weak kinds
when their pKa is supplied; a weak kind with missing pKa instead falls
through to the neutral default `ph = 7.0` without error.  In particular
`calculate_ph (-1) "strong_acid"` fails. -/
theorem calculate_ph_domain_errors :
    (∀ c : ℝ, c ≤ 0 → ∀ pk, calculate_ph c "strong_acid" pk = .error .valueError) ∧
    (∀ c : ℝ, c ≤ 0 → ∀ pk, calculate_ph c "strong_base" pk = .error .valueError) ∧
    (∀ c p : ℝ, c ≤ 0 → calculate_ph c "weak_acid" (some p) = .error .valueError) ∧
    (∀ c p : ℝ, c ≤ 0 → calculate_ph c "weak_base" (some p) = .error .valueError) ∧
    (∀ c : ℝ, calculate_ph c "weak_acid" none = .ok (mkPHResult 7.0 c "weak_acid")) ∧
    (∀ c : ℝ, calculate_ph c "weak_base" none = .ok (mkPHResult 7.0 c "weak_base")) ∧
    calculate_ph (-1) "strong_acid" none = .error .valueError := by
  have herr : ∀ c : ℝ, c ≤ 0 → log10m c = .error .valueError := by
    intro c hc; unfold log10m; rw [if_pos hc]
  refine ⟨?_, ?_, ?_, ?_, ?_, ?_, ?_⟩
  · intro c hc pk
    unfold calculate_ph
    rw [if_pos rfl, herr c hc]; rfl
  · intro c hc pk
    unfold calculate_ph
    rw [if_neg (by decide), if_pos rfl, herr c hc]; rfl
  · intro c p hc
    unfold calculate_ph
    rw [if_neg (by decide), if_neg (by decide), herr c hc]; rfl
  · intro c p hc
    unfold calculate_ph
    rw [if_neg (by decide), if_neg (by decide), herr c hc]; rfl
  · intro c
    unfold calculate_ph
    rw [if_neg (by decide), if_neg (by decide)]
    rfl
  · intro c
    unfold calculate_ph
    rw [if_neg (by decide), if_neg (by decide)]
    rfl
  · unfold calculate_ph
    rw [if_pos rfl, herr (-1) (by norm_num)]; rfl

/-- C4 witness: the amended theorem applied at concrete inputs. -/
theorem calculate_ph_domain_errors_witness :
    calculate_ph (-1) "strong_base" none = .error .valueError ∧
    calculate_ph 0.5 "weak_base" none = .ok (mkPHResult 7.0 0.5 "weak_base") :=
  ⟨calculate_ph_domain_errors.2.1 (-1) (by norm_num) none,
   calculate_ph_domain_errors.2.2.2.2.2.1 0.5⟩

/-! ## C5: dilution_calculator -/

/-- C5 counterexample: contrary to the claim, supplying BOTH
final_concentration and final_volume does not fail with a domain error —
the `final_concentration is not None` branch is taken, the supplied
final_volume 5 is ignored, and the call succeeds with the recomputed
final_volume 10. -/
theorem dilution_both_supplied_ok :
    dilution_calculator 10 1 (some 1) (some 5) = .ok ⟨10, 1, 1, 10, 9⟩ := by
  show (if (1 : ℝ) = 0 then (.error .zeroDivisionError : Except PyErr DilutionResult)
    else .ok ⟨10, 1, 1, pyRoundTo 4 ((10 : ℝ) * 1 / 1), pyRoundTo 4 ((10 : ℝ) * 1 / 1 - 1)⟩) =
    .ok ⟨10, 1, 1, 10, 9⟩
  rw [if_neg (show ¬(1 : ℝ) = 0 by norm_num)]
  rw [pyRoundTo_ofInt 4 100000 ((10 : ℝ) * 1 / 1) (by norm_num)]
  rw [pyRoundTo_ofInt 4 90000 ((10 : ℝ) * 1 / 1 - 1) (by norm_num)]
  norm_num

/-- C5 amended: when exactly one of final_concentration / final_volume is
missing the other is derived from c1·v1 = c2·v2 (rounded to 4 places) and
solvent_to_add = v2 - v1; with NEITHER supplied the call fails; with BOTH
supplied the final_concentration branch wins and final_volume is ignored
(see the counterexample).  Concretely c1=10, v1=1, c2=1 gives v2 = 10 and
solvent_to_add = 9. -/
theorem dilution_calculator_spec :
    (∀ c1 v1 : ℝ, dilution_calculator c1 v1 none none = .error .valueError) ∧
    (∀ (c1 v1 c2 : ℝ) (fv : Option ℝ), c2 ≠ 0 →
      dilution_calculator c1 v1 (some c2) fv =
        .ok ⟨c1, v1, c2, pyRoundTo 4 (c1 * v1 / c2),
             pyRoundTo 4 (c1 * v1 / c2 - v1)⟩) ∧
    (∀ c1 v1 v2 : ℝ, v2 ≠ 0 →
      dilution_calculator c1 v1 none (some v2) =
        .ok ⟨c1, v1, pyRoundTo 4 (c1 * v1 / v2), v2, pyRoundTo 4 (v2 - v1)⟩) ∧
    dilution_calculator 10 1 (some 1) none = .ok ⟨10, 1, 1, 10, 9⟩ := by
  refine ⟨?_, ?_, ?_, ?_⟩
  · intro c1 v1; rfl
  · intro c1 v1 c2 fv h
    show (if c2 = 0 then (.error .zeroDivisionError : Except PyErr DilutionResult)
      else .ok ⟨c1, v1, c2, pyRoundTo 4 (c1 * v1 / c2), pyRoundTo 4 (c1 * v1 / c2 - v1)⟩) = _
    rw [if_neg h]
  · intro c1 v1 v2 h
    show (if v2 = 0 then (.error .zeroDivisionError : Except PyErr DilutionResult)
      else .ok ⟨c1, v1, pyRoundTo 4 (c1 * v1 / v2), v2, pyRoundTo 4 (v2 - v1)⟩) = _
    rw [if_neg h]
  · show (if (1 : ℝ) = 0 then (.error .zeroDivisionError : Except PyErr DilutionResult)
      else .ok ⟨10, 1, 1, pyRoundTo 4 ((10 : ℝ) * 1 / 1), pyRoundTo 4 ((10 : ℝ) * 1 / 1 - 1)⟩) =
      .ok ⟨10, 1, 1, 10, 9⟩
    rw [if_neg (show ¬(1 : ℝ) = 0 by norm_num)]
    rw [pyRoundTo_ofInt 4 100000 ((10 : ℝ) * 1 / 1) (by norm_num)]
    rw [pyRoundTo_ofInt 4 90000 ((10 : ℝ) * 1 / 1 - 1) (by norm_num)]
    norm_num

/-- C5 witness: the amended theorem applied at concrete inputs. -/
theorem dilution_calculator_spec_witness :
    dilution_calculator 2 3 none (some 6) =
      .ok ⟨2, 3, pyRoundTo 4 ((2 : ℝ) * 3 / 6), 6, pyRoundTo 4 ((6 : ℝ) - 3)⟩ :=
  dilution_calculator_spec.2.2.1 2 3 6 (by norm_num)

/-! ## C6: buffer_calculator -/

/-- C6 counterexample: the code rounds both outputs to 4 decimal places
(lines 258–259), so at target_ph = pka = 4.76 and total = 0.000149 the
exact halves 0.0000745 both round up to 0.0001: the returned
concentrations sum to 0.0002 ≠ 0.000149, the returned acid concentration
is not total/(1+ratio), and it is not total/2 either. -/
theorem buffer_rounding_counterexample :
    (buffer_calculator 4.76 4.76 0.000149).acid_concentration +
        (buffer_calculator 4.76 4.76 0.000149).base_concentration ≠ (0.000149 : ℝ) ∧
    (buffer_calculator 4.76 4.76 0.000149).acid_concentration ≠
        (0.000149 : ℝ) / (1 + (10 : ℝ) ^ ((4.76 : ℝ) - 4.76)) ∧
    (buffer_calculator 4.76 4.76 0.000149).acid_concentration ≠ (0.000149 : ℝ) / 2 := by
  have hr : (10 : ℝ) ^ ((4.76 : ℝ) - 4.76) = 1 := by rw [sub_self, Real.rpow_zero]
  have hval : pyRoundTo 4 ((0.000149 : ℝ) / (1 + (10 : ℝ) ^ ((4.76 : ℝ) - 4.76)))
      = (0.0001 : ℝ) := by
    rw [hr, show (0.000149 : ℝ) / (1 + 1) = 0.0000745 by norm_num]
    unfold pyRoundTo
    rw [show (0.0000745 : ℝ) * 10 ^ 4 = 0.745 by norm_num,
      pyRound_up 0.745 0 (by norm_num) (by norm_num)]
    norm_num
  have ha : (buffer_calculator 4.76 4.76 0.000149).acid_concentration = (0.0001 : ℝ) := hval
  have hb : (buffer_calculator 4.76 4.76 0.000149).base_concentration = (0.0001 : ℝ) := by
    show pyRoundTo 4 ((0.000149 : ℝ) - (0.000149 : ℝ) / (1 + (10 : ℝ) ^ ((4.76 : ℝ) - 4.76)))
        = (0.0001 : ℝ)
    rw [hr, show (0.000149 : ℝ) - (0.000149 : ℝ) / (1 + 1) = 0.0000745 by norm_num]
    unfold pyRoundTo
    rw [show (0.0000745 : ℝ) * 10 ^ 4 = 0.745 by norm_num,
      pyRound_up 0.745 0 (by norm_num) (by norm_num)]
    norm_num
  refine ⟨?_, ?_, ?_⟩
  · rw [ha, hb]; norm_num
  · rw [ha, hr]; norm_num
  · rw [ha]; norm_num

/-- C6 amended: the two outputs are the 4-decimal roundings of
acid = total/(1+ratio) and base = total - acid; both are non-negative and
their sum equals total up to the rounding granularity (within 10⁻⁴, not
exactly); when target_ph = pka both outputs equal the rounding of
total/2. -/
theorem buffer_calculator_spec (tph pk tc : ℝ) (h : 0 < tc) :
    (buffer_calculator tph pk tc).acid_concentration =
        pyRoundTo 4 (tc / (1 + (10 : ℝ) ^ (tph - pk))) ∧
    (buffer_calculator tph pk tc).base_concentration =
        pyRoundTo 4 (tc - tc / (1 + (10 : ℝ) ^ (tph - pk))) ∧
    0 ≤ (buffer_calculator tph pk tc).acid_concentration ∧
    0 ≤ (buffer_calculator tph pk tc).base_concentration ∧
    |(buffer_calculator tph pk tc).acid_concentration +
        (buffer_calculator tph pk tc).base_concentration - tc| ≤ 1 / 10 ^ 4 ∧
    (tph = pk →
      (buffer_calculator tph pk tc).acid_concentration = pyRoundTo 4 (tc / 2) ∧
      (buffer_calculator tph pk tc).base_concentration = pyRoundTo 4 (tc / 2)) := by
  have hr : (0 : ℝ) < (10 : ℝ) ^ (tph - pk) := Real.rpow_pos_of_pos (by norm_num) _
  have hden : (0 : ℝ) < 1 + (10 : ℝ) ^ (tph - pk) := by linarith
  have ha : (buffer_calculator tph pk tc).acid_concentration =
      pyRoundTo 4 (tc / (1 + (10 : ℝ) ^ (tph - pk))) := rfl
  have hb : (buffer_calculator tph pk tc).base_concentration =
      pyRoundTo 4 (tc - tc / (1 + (10 : ℝ) ^ (tph - pk))) := rfl
  have hacidpos : 0 < tc / (1 + (10 : ℝ) ^ (tph - pk)) := div_pos h hden
  have hacidle : tc / (1 + (10 : ℝ) ^ (tph - pk)) ≤ tc := by
    rw [div_le_iff₀ hden]; nlinarith
  refine ⟨ha, hb, ?_, ?_, ?_, ?_⟩
  · rw [ha]; exact pyRoundTo_nonneg _ _ (le_of_lt hacidpos)
  · rw [hb]; exact pyRoundTo_nonneg _ _ (by linarith)
  · rw [ha, hb]
    have e1 := abs_pyRoundTo_sub 4 (tc / (1 + (10 : ℝ) ^ (tph - pk)))
    have e2 := abs_pyRoundTo_sub 4 (tc - tc / (1 + (10 : ℝ) ^ (tph - pk)))
    calc |pyRoundTo 4 (tc / (1 + (10 : ℝ) ^ (tph - pk))) +
            pyRoundTo 4 (tc - tc / (1 + (10 : ℝ) ^ (tph - pk))) - tc|
        = |(pyRoundTo 4 (tc / (1 + (10 : ℝ) ^ (tph - pk))) -
              tc / (1 + (10 : ℝ) ^ (tph - pk))) +
            (pyRoundTo 4 (tc - tc / (1 + (10 : ℝ) ^ (tph - pk))) -
              (tc - tc / (1 + (10 : ℝ) ^ (tph - pk))))| := by congr 1; ring
      _ ≤ |pyRoundTo 4 (tc / (1 + (10 : ℝ) ^ (tph - pk))) -
              tc / (1 + (10 : ℝ) ^ (tph - pk))| +
            |pyRoundTo 4 (tc - tc / (1 + (10 : ℝ) ^ (tph - pk))) -
              (tc - tc / (1 + (10 : ℝ) ^ (tph - pk)))| := abs_add _ _
      _ ≤ 1 / 2 / 10 ^ 4 + 1 / 2 / 10 ^ 4 := add_le_add e1 e2
      _ = 1 / 10 ^ 4 := by norm_num
  · intro heq
    rw [ha, hb, heq, sub_self, Real.rpow_zero,
      show tc / (1 + 1) = tc / 2 by norm_num,
      show tc - tc / 2 = tc / 2 by ring]
    exact ⟨rfl, rfl⟩

/-- C6 witness: the amended theorem at pka = target_ph = 4.76,
total = 0.1, giving the spec's example value 0.05 for both outputs. -/
theorem buffer_calculator_spec_witness :
    (buffer_calculator 4.76 4.76 0.1).acid_concentration = pyRoundTo 4 ((0.1 : ℝ) / 2) ∧
    (buffer_calculator 4.76 4.76 0.1).base_concentration = pyRoundTo 4 ((0.1 : ℝ) / 2) ∧
    pyRoundTo 4 ((0.1 : ℝ) / 2) = (0.05 : ℝ) := by
  have h := (buffer_calculator_spec 4.76 4.76 0.1 (by norm_num)).2.2.2.2.2 rfl
  refine ⟨h.1, h.2, ?_⟩
  rw [show (0.1 : ℝ) / 2 = 0.05 by norm_num,
    pyRoundTo_ofInt 4 500 0.05 (by norm_num)]
  norm_num

/-! ## C9 and C10: calculate_ph branch formulas and result consistency -/

theorem logb_ten_hundredth : Real.logb 10 (0.01 : ℝ) = -2 := by
  rw [show (0.01 : ℝ) = (10 : ℝ) ^ (-2 : ℝ) by
    rw [show (-2 : ℝ) = ((-2 : ℤ) : ℝ) by norm_num, Real.rpow_intCast]; norm_num]
  exact Real.logb_rpow (by norm_num) (by norm_num)

/-- C9: calculate_ph computes pH by kind — strong_acid gives
ph = -log10(c); strong_base gives poh = -log10(c), ph = 14 - poh;
weak_acid with pKa gives ph = pka - log10(c); weak_base with pKa gives
ph = 14 - ((14 - pka) - log10(c)); any unrecognised kind returns ph = 7.0
without error; concretely, concentration 0.01 gives ph = 2.00 for
strong_acid and poh = 2.00, ph = 12.00 for strong_base. -/
theorem calculate_ph_branches :
    (∀ c : ℝ, 0 < c → ∀ pk, calculate_ph c "strong_acid" pk =
        .ok (mkPHResult (-Real.logb 10 c) c "strong_acid")) ∧
    (∀ c : ℝ, 0 < c → ∀ pk, calculate_ph c "strong_base" pk =
        .ok (mkPHResult (14 - -Real.logb 10 c) c "strong_base")) ∧
    (∀ c p : ℝ, 0 < c → calculate_ph c "weak_acid" (some p) =
        .ok (mkPHResult (p - Real.logb 10 c) c "weak_acid")) ∧
    (∀ c p : ℝ, 0 < c → calculate_ph c "weak_base" (some p) =
        .ok (mkPHResult (14 - ((14 - p) - Real.logb 10 c)) c "weak_base")) ∧
    (∀ (c : ℝ) (st : String) (pk : Option ℝ),
        st ≠ "strong_acid" → st ≠ "strong_base" → st ≠ "weak_acid" → st ≠ "weak_base" →
        calculate_ph c st pk = .ok (mkPHResult 7.0 c st)) ∧
    (∀ r, calculate_ph 0.01 "strong_acid" none = .ok r → r.ph = 2) ∧
    (∀ r, calculate_ph 0.01 "strong_base" none = .ok r → r.poh = 2 ∧ r.ph = 12) := by
  have hok : ∀ c : ℝ, 0 < c → log10m c = .ok (Real.logb 10 c) := by
    intro c hc; unfold log10m; rw [if_neg (not_le.mpr hc)]
  have hsa : ∀ c : ℝ, 0 < c → ∀ pk, calculate_ph c "strong_acid" pk =
      .ok (mkPHResult (-Real.logb 10 c) c "strong_acid") := by
    intro c hc pk
    unfold calculate_ph
    rw [if_pos rfl, hok c hc]; rfl
  have hsb : ∀ c : ℝ, 0 < c → ∀ pk, calculate_ph c "strong_base" pk =
      .ok (mkPHResult (14 - -Real.logb 10 c) c "strong_base") := by
    intro c hc pk
    unfold calculate_ph
    rw [if_neg (by decide), if_pos rfl, hok c hc]; rfl
  refine ⟨hsa, hsb, ?_, ?_, ?_, ?_, ?_⟩
  · intro c p hc
    unfold calculate_ph
    rw [if_neg (by decide), if_neg (by decide), hok c hc]; rfl
  · intro c p hc
    unfold calculate_ph
    rw [if_neg (by decide), if_neg (by decide), hok c hc]; rfl
  · intro c st pk h1 h2 h3 h4
    unfold calculate_ph
    rw [if_neg h1, if_neg h2]
    split
    · exact absurd rfl h3
    · exact absurd rfl h4
    · rfl
  · intro r hr
    rw [hsa 0.01 (by norm_num) none] at hr
    injection hr with hr
    rw [← hr]
    show pyRoundTo 2 (-Real.logb 10 (0.01 : ℝ)) = 2
    rw [logb_ten_hundredth, show -(-2 : ℝ) = 2 by norm_num,
      pyRoundTo_ofInt 2 200 2 (by norm_num)]
    norm_num
  · intro r hr
    rw [hsb 0.01 (by norm_num) none] at hr
    injection hr with hr
    rw [← hr]
    constructor
    · show pyRoundTo 2 (14 - (14 - -Real.logb 10 (0.01 : ℝ))) = 2
      rw [logb_ten_hundredth, show (14 : ℝ) - (14 - -(-2 : ℝ)) = 2 by norm_num,
        pyRoundTo_ofInt 2 200 2 (by norm_num)]
      norm_num
    · show pyRoundTo 2 (14 - -Real.logb 10 (0.01 : ℝ)) = 12
      rw [logb_ten_hundredth, show (14 : ℝ) - -(-2 : ℝ) = 12 by norm_num,
        pyRoundTo_ofInt 2 1200 12 (by norm_num)]
      norm_num

/-- C9 witness: the branch theorem applied at concentration 0.01. -/
theorem calculate_ph_branches_witness :
    calculate_ph 0.01 "strong_acid" none =
      .ok (mkPHResult (-Real.logb 10 (0.01 : ℝ)) 0.01 "strong_acid") :=
  calculate_ph_branches.1 0.01 (by norm_num) none

/-- C10: every successful calculate_ph result is internally consistent:
there is a single computed pH value from which the returned fields derive —
poh is round(14 - ph, 2), is_acidic iff ph < 7, is_basic iff ph > 7,
is_neutral iff 6.5 < ph < 7.5. -/
theorem calculate_ph_consistency (c : ℝ) (st : String) (pk : Option ℝ) (r : PHResult)
    (h : calculate_ph c st pk = .ok r) :
    ∃ phv : ℝ, r.ph = pyRoundTo 2 phv ∧ r.poh = pyRoundTo 2 (14 - phv) ∧
      (r.is_acidic ↔ phv < 7) ∧ (r.is_basic ↔ 7 < phv) ∧
      (r.is_neutral ↔ 6.5 < phv ∧ phv < 7.5) := by
  have key : ∀ (phv conc : ℝ) (s : String), r = mkPHResult phv conc s →
      ∃ phv2 : ℝ, r.ph = pyRoundTo 2 phv2 ∧ r.poh = pyRoundTo 2 (14 - phv2) ∧
        (r.is_acidic ↔ phv2 < 7) ∧ (r.is_basic ↔ 7 < phv2) ∧
        (r.is_neutral ↔ 6.5 < phv2 ∧ phv2 < 7.5) := by
    rintro phv conc s rfl
    exact ⟨phv, rfl, rfl, Iff.rfl, Iff.rfl, Iff.rfl⟩
  unfold calculate_ph at h
  split at h
  · obtain ⟨a, _, hra⟩ := exceptMap_ok _ _ _ h
    exact key _ _ _ hra
  · split at h
    · obtain ⟨a, _, hra⟩ := exceptMap_ok _ _ _ h
      exact key _ _ _ hra
    · split at h
      · obtain ⟨a, _, hra⟩ := exceptMap_ok _ _ _ h
        exact key _ _ _ hra
      · obtain ⟨a, _, hra⟩ := exceptMap_ok _ _ _ h
        exact key _ _ _ hra
      · injection h with h
        exact key _ _ _ h.symm

/-- C10 witness: the consistency theorem applied at a concrete call. -/
theorem calculate_ph_consistency_witness :
    calculate_ph 1 "x" none = .ok (mkPHResult 7.0 1 "x") ∧
    ∃ phv : ℝ, (mkPHResult 7.0 1 "x").ph = pyRoundTo 2 phv ∧
      (mkPHResult 7.0 1 "x").poh = pyRoundTo 2 (14 - phv) ∧
      ((mkPHResult 7.0 1 "x").is_acidic ↔ phv < 7) ∧
      ((mkPHResult 7.0 1 "x").is_basic ↔ 7 < phv) ∧
      ((mkPHResult 7.0 1 "x").is_neutral ↔ 6.5 < phv ∧ phv < 7.5) :=
  have h : calculate_ph 1 "x" none = .ok (mkPHResult 7.0 1 "x") := by
    unfold calculate_ph
    rw [if_neg (by decide), if_neg (by decide)]
    rfl
  ⟨h, calculate_ph_consistency 1 "x" none _ h⟩

/-! ## Split lemmas (for C2, C3, C7) -/

theorem splitOnChar_cons (sep c : Char) (cs : List Char) :
    splitOnChar sep (c :: cs) =
      if c = sep then [] :: splitOnChar sep cs
      else
        match splitOnChar sep cs with
        | [] => [[c]]
        | p :: ps => (c :: p) :: ps := rfl

theorem splitOnChar_ne_nil (sep : Char) (l : List Char) : splitOnChar sep l ≠ [] := by
  cases l with
  | nil => simp [splitOnChar]
  | cons c cs =>
    rw [splitOnChar_cons]
    by_cases hc : c = sep
    · simp [hc]
    · rw [if_neg hc]
      rcases hsp : splitOnChar sep cs with _ | ⟨p, ps⟩ <;> simp

theorem length_splitOnChar (sep : Char) (l : List Char) :
    (splitOnChar sep l).length = l.count sep + 1 := by
  induction l with
  | nil => rfl
  | cons c cs ih =>
    rw [splitOnChar_cons]
    by_cases hc : c = sep
    · rw [if_pos hc]
      simp only [List.length_cons, List.count_cons, ih]
      simp [hc]
    · rw [if_neg hc]
      rcases hsp : splitOnChar sep cs with _ | ⟨p, ps⟩
      · exact absurd hsp (splitOnChar_ne_nil sep cs)
      · rw [hsp] at ih
        simp only [List.length_cons, List.count_cons] at ih ⊢
        have hbc : (sep == c) = false := by
          simp only [beq_eq_false_iff_ne, ne_eq]
          exact fun h => hc h.symm
        simp [hbc, ih, hc]

/-- A failed `balanceCore` produces the error dictionary. -/
theorem balance_equation_error (s : List Char) (e : ChemErr)
    (h : balanceCore s = .error e) :
    balance_equation s = ⟨s, s, [], [], false, some e⟩ := by
  unfold balance_equation
  rw [h]

theorem balanceCore_error_of_build (s : List Char) (e : ChemErr)
    (h : buildSystem s = .error e) : balanceCore s = .error e := by
  unfold balanceCore
  rw [h]

/-- Without exactly one `=` the side unpacking on line 30 fails. -/
theorem buildSystem_count_ne_one (s : List Char) (h : ¬s.count '=' = 1) :
    buildSystem s = .error .parseError := by
  have hlen : (splitOnChar '=' s).length ≠ 2 := by
    rw [length_splitOnChar]; omega
  unfold buildSystem
  rcases hsp : splitOnChar '=' s with _ | ⟨a, _ | ⟨b, _ | ⟨c, t⟩⟩⟩
  · rfl
  · rfl
  · rw [hsp] at hlen
    simp at hlen
  · rfl

theorem parseForms_eq_none (names : List (List Char)) (h : [] ∈ names) :
    parseForms names = none := by
  induction names with
  | nil => cases h
  | cons s rest ih =>
    rcases List.mem_cons.mp h with h | h
    · rw [← h]
      rfl
    · unfold parseForms
      rcases hpf : parseFormula s with _ | f
      · rfl
      · rw [ih h]

theorem mem_dedupAux (seen l : List (List Char)) (a : List Char)
    (ha : a ∈ l) (hs : a ∉ seen) : a ∈ dedupAux seen l := by
  induction l generalizing seen with
  | nil => cases ha
  | cons s rest ih =>
    unfold dedupAux
    by_cases hc : seen.contains s = true
    · rw [if_pos hc]
      rcases List.mem_cons.mp ha with h | h
      · subst h
        exact absurd (by simpa using hc) hs
      · exact ih seen h hs
    · rw [if_neg hc]
      rcases List.mem_cons.mp ha with h | h
      · subst h
        exact List.mem_cons_self _ _
      · by_cases has : a = s
        · subst has
          exact List.mem_cons_self _ _
        · refine List.mem_cons_of_mem _ (ih (s :: seen) h ?_)
          intro hmem
          rcases List.mem_cons.mp hmem with h2 | h2
          · exact has h2
          · exact hs h2

theorem mem_dedupKeepFirst (l : List (List Char)) (a : List Char) (ha : a ∈ l) :
    a ∈ dedupKeepFirst l :=
  mem_dedupAux [] l a ha (by simp)

/-- A side with an empty (after stripping) species makes parsing fail. -/
theorem buildSystem_empty_species (s ls rs : List Char)
    (hsp : splitOnChar '=' s = [ls, rs])
    (h : [] ∈ speciesOf ls ∨ [] ∈ speciesOf rs) :
    buildSystem s = .error .parseError := by
  have hred : buildSystem s = buildSystemSides ls rs := by
    unfold buildSystem
    rw [hsp]
  rw [hred]
  unfold buildSystemSides
  rcases h with h | h
  · rw [show parseForms (sideNames ls) = none from
      parseForms_eq_none _ (mem_dedupKeepFirst _ _ h)]
  · rcases hr : parseForms (sideNames ls) with _ | reacs
    · rfl
    · rw [show parseForms (sideNames rs) = none from
        parseForms_eq_none _ (mem_dedupKeepFirst _ _ h)]

/-! ## C2: the H2 + O2 = H2O example -/

set_option maxRecDepth 40000 in
/-- C2: balance_equation("H2 + O2 = H2O") succeeds, rendering
"2H2 + O2 → 2H2O" (with the source's arrow bytes), with reactant
coefficients H2 ↦ 2, O2 ↦ 1 and product coefficients H2O ↦ 2. -/
theorem balance_equation_water_example :
    balance_equation ("H2 + O2 = H2O").data =
      ⟨("H2 + O2 = H2O").data,
       ("2H2 + O2").data ++ arrowSep ++ ("2H2O").data,
       [(("H2").data, 2), (("O2").data, 1)],
       [(("H2O").data, 2)], true, none⟩ := by
  decide

/-! ## C7: ParseError on malformed equations -/

/-- C7: balance_equation fails with ParseError on malformed equation
text: any input whose number of `=` separators is not exactly one (in
particular the separator-free "H2 + O2") fails, and any input whose sides
contain an empty species (nothing between `=` and/or `+` after stripping,
so each side needs at least one species) fails. -/
theorem balance_equation_parse_errors :
    (∀ s : List Char, ¬s.count '=' = 1 →
      balance_equation s = ⟨s, s, [], [], false, some .parseError⟩) ∧
    (∀ s ls rs : List Char, splitOnChar '=' s = [ls, rs] →
      ([] ∈ speciesOf ls ∨ [] ∈ speciesOf rs) →
      balance_equation s = ⟨s, s, [], [], false, some .parseError⟩) ∧
    balance_equation ("H2 + O2").data =
      ⟨("H2 + O2").data, ("H2 + O2").data, [], [], false, some .parseError⟩ := by
  refine ⟨?_, ?_, ?_⟩
  · intro s h
    exact balance_equation_error s _
      (balanceCore_error_of_build s _ (buildSystem_count_ne_one s h))
  · intro s ls rs hsp h
    exact balance_equation_error s _
      (balanceCore_error_of_build s _ (buildSystem_empty_species s ls rs hsp h))
  · decide

/-- C7 witness: the theorem applied at concrete malformed inputs — a
two-separator equation and an equation with an empty right-hand side. -/
theorem balance_equation_parse_errors_witness :
    balance_equation ("H2 = O2 = H2O").data =
      ⟨("H2 = O2 = H2O").data, ("H2 = O2 = H2O").data, [], [], false, some .parseError⟩ ∧
    balance_equation ("H2 + O2 = ").data =
      ⟨("H2 + O2 = ").data, ("H2 + O2 = ").data, [], [], false, some .parseError⟩ :=
  ⟨balance_equation_parse_errors.1 ("H2 = O2 = H2O").data (by decide),
   balance_equation_parse_errors.2.1 ("H2 + O2 = ").data
     ("H2 + O2 ").data (" ").data (by decide) (by decide)⟩


/-! ## Shape lemmas for successful balancing (used by C1, C3, C8) -/

theorem parseForms_names (names : List (List Char)) (l : List (List Char × Counts))
    (h : parseForms names = some l) : l.map Prod.fst = names := by
  induction names generalizing l with
  | nil =>
    unfold parseForms at h
    injection h with h
    rw [← h]
    rfl
  | cons s rest ih =>
    unfold parseForms at h
    split at h
    · exact absurd h (by simp)
    · split at h
      · exact absurd h (by simp)
      · rename_i f _ fs hfs
        injection h with h
        rw [← h]
        simp only [List.map_cons]
        rw [ih fs hfs]

theorem dedupAux_subset (seen l : List (List Char)) (a : List Char)
    (h : a ∈ dedupAux seen l) : a ∈ l := by
  induction l generalizing seen with
  | nil => cases h
  | cons s rest ih =>
    unfold dedupAux at h
    by_cases hc : seen.contains s = true
    · rw [if_pos hc] at h
      exact List.mem_cons_of_mem _ (ih seen h)
    · rw [if_neg hc] at h
      rcases List.mem_cons.mp h with h | h
      · rw [h]; exact List.mem_cons_self _ _
      · exact List.mem_cons_of_mem _ (ih (s :: seen) h)

theorem buildSystem_ok_shape (s : List Char) (sys : EqSystemZ)
    (h : buildSystem s = .ok sys) :
    ∃ ls rs : List Char, splitOnChar '=' s = [ls, rs] ∧
      parseForms (sideNames ls) = some sys.reacs ∧
      parseForms (sideNames rs) = some sys.prods ∧
      sys.elems = eqElems sys.reacs sys.prods ∧
      sys.matrix = (eqElems sys.reacs sys.prods).map (rowFor sys.reacs sys.prods) := by
  unfold buildSystem at h
  split at h
  · rename_i ls rs heq
    unfold buildSystemSides at h
    split at h
    · exact absurd h (by simp)
    · rename_i reacs hreacs
      split at h
      · exact absurd h (by simp)
      · rename_i prods hprods
        split at h
        · injection h with h
          subst h
          exact ⟨ls, rs, heq, hreacs, hprods, rfl, rfl⟩
        · exact absurd h (by simp)
  · exact absurd h (by simp)

theorem balanceCore_ok_shape (s : List Char) (core : BalancedCore)
    (h : balanceCore s = .ok core) :
    ∃ (sys : EqSystemZ) (cs : List ℤ), buildSystem s = .ok sys ∧
      solveCoeffs sys.matrix (sys.reacs.length + sys.prods.length) = .ok cs ∧
      core.reacs = List.zip (sys.reacs.map Prod.fst) (cs.take sys.reacs.length) ∧
      core.prods = List.zip (sys.prods.map Prod.fst) (cs.drop sys.reacs.length) ∧
      core.rendered = renderSide core.reacs ++ arrowSep ++ renderSide core.prods := by
  unfold balanceCore at h
  split at h
  · exact absurd h (by simp)
  · rename_i sys hb
    split at h
    · exact absurd h (by simp)
    · rename_i cs hs
      injection h with h
      refine ⟨sys, cs, hb, hs, ?_, ?_, ?_⟩ <;> rw [← h]

/-! ## Character provenance lemmas (for C3) -/

theorem splitOnChar_chars_subset (sep : Char) : ∀ l p : List Char,
    p ∈ splitOnChar sep l → ∀ c ∈ p, c ∈ l := by
  intro l
  induction l with
  | nil =>
    intro p hp c hc
    rcases List.mem_cons.mp hp with h | h
    · rw [h] at hc; cases hc
    · cases h
  | cons c0 cs ih =>
    intro p hp c hc
    rw [splitOnChar_cons] at hp
    by_cases hc0 : c0 = sep
    · rw [if_pos hc0] at hp
      rcases List.mem_cons.mp hp with h | h
      · rw [h] at hc; cases hc
      · exact List.mem_cons_of_mem _ (ih p h c hc)
    · rw [if_neg hc0] at hp
      rcases hsp : splitOnChar sep cs with _ | ⟨q, qs⟩
      · exact absurd hsp (splitOnChar_ne_nil sep cs)
      · rw [hsp] at hp
        rcases List.mem_cons.mp hp with h | h
        · rw [h] at hc
          rcases List.mem_cons.mp hc with h2 | h2
          · rw [h2]; exact List.mem_cons_self _ _
          · refine List.mem_cons_of_mem _ (ih q ?_ c h2)
            rw [hsp]; exact List.mem_cons_self _ _
        · refine List.mem_cons_of_mem _ (ih p ?_ c hc)
          rw [hsp]; exact List.mem_cons_of_mem _ h

theorem splitOnChar_not_mem (sep : Char) : ∀ l p : List Char,
    p ∈ splitOnChar sep l → sep ∉ p := by
  intro l
  induction l with
  | nil =>
    intro p hp hmem
    rcases List.mem_cons.mp hp with h | h
    · rw [h] at hmem; cases hmem
    · cases h
  | cons c0 cs ih =>
    intro p hp hmem
    rw [splitOnChar_cons] at hp
    by_cases hc0 : c0 = sep
    · rw [if_pos hc0] at hp
      rcases List.mem_cons.mp hp with h | h
      · rw [h] at hmem; cases hmem
      · exact ih p h hmem
    · rw [if_neg hc0] at hp
      rcases hsp : splitOnChar sep cs with _ | ⟨q, qs⟩
      · exact absurd hsp (splitOnChar_ne_nil sep cs)
      · rw [hsp] at hp
        rcases List.mem_cons.mp hp with h | h
        · rw [h] at hmem
          rcases List.mem_cons.mp hmem with h2 | h2
          · exact hc0 h2.symm
          · refine ih q ?_ h2
            rw [hsp]; exact List.mem_cons_self _ _
        · refine ih p ?_ hmem
          rw [hsp]; exact List.mem_cons_of_mem _ h

theorem stripChars_subset (l : List Char) (c : Char) (hc : c ∈ stripChars l) : c ∈ l := by
  unfold stripChars at hc
  have h1 := List.mem_reverse.mp hc
  have h2 := (List.dropWhile_sublist _).subset h1
  have h3 := List.mem_reverse.mp h2
  exact (List.dropWhile_sublist _).subset h3

theorem speciesOf_chars (side nm : List Char) (hnm : nm ∈ speciesOf side)
    (c : Char) (hc : c ∈ nm) : c ∈ side := by
  unfold speciesOf at hnm
  rcases List.mem_map.mp hnm with ⟨p, hp, hstrip⟩
  rw [← hstrip] at hc
  exact splitOnChar_chars_subset '+' side p hp c (stripChars_subset p c hc)

theorem mem_intersperse (sep x : List Char) : ∀ xs : List (List Char),
    x ∈ List.intersperse sep xs → x = sep ∨ x ∈ xs
  | [], h => by cases h
  | [a], h => by
    right
    simpa [List.intersperse] using h
  | a :: b :: t, h => by
    rw [show List.intersperse sep (a :: b :: t) =
        a :: sep :: List.intersperse sep (b :: t) from rfl] at h
    rcases List.mem_cons.mp h with h | h
    · right; rw [h]; exact List.mem_cons_self _ _
    · rcases List.mem_cons.mp h with h | h
      · left; exact h
      · rcases mem_intersperse sep x (b :: t) h with h | h
        · left; exact h
        · right; exact List.mem_cons_of_mem _ h

theorem digitChar_isDigit (m : ℕ) (hm : m < 10) : (Char.ofNat (48 + m)).isDigit = true := by
  interval_cases m <;> decide

theorem natDigitsAux_chars : ∀ (f n : ℕ) (acc : List Char) (c : Char),
    c ∈ natDigitsAux f n acc → c ∈ acc ∨ c.isDigit = true := by
  intro f
  induction f with
  | zero => intro n acc c h; exact Or.inl h
  | succ f ih =>
    intro n acc c h
    unfold natDigitsAux at h
    by_cases hn : n < 10
    · rw [if_pos hn] at h
      rcases List.mem_cons.mp h with h | h
      · rw [h]
        exact Or.inr (digitChar_isDigit (n % 10) (Nat.mod_lt _ (by norm_num)))
      · exact Or.inl h
    · rw [if_neg hn] at h
      rcases ih (n / 10) _ c h with h | h
      · rcases List.mem_cons.mp h with h | h
        · rw [h]
          exact Or.inr (digitChar_isDigit (n % 10) (Nat.mod_lt _ (by norm_num)))
        · exact Or.inl h
      · exact Or.inr h

theorem renderSide_chars (side : List (List Char × ℤ)) (c : Char)
    (h : c ∈ renderSide side) :
    c = ' ' ∨ c = '+' ∨ c.isDigit = true ∨ ∃ p ∈ side, c ∈ p.1 := by
  unfold renderSide at h
  rw [List.intercalate] at h
  rcases List.mem_flatten.mp h with ⟨l, hl, hcl⟩
  rcases mem_intersperse _ _ _ hl with h1 | h1
  · rw [h1] at hcl
    rcases List.mem_cons.mp hcl with h2 | h2
    · exact Or.inl h2
    rcases List.mem_cons.mp h2 with h3 | h3
    · exact Or.inr (Or.inl h3)
    rcases List.mem_cons.mp h3 with h4 | h4
    · exact Or.inl h4
    · cases h4
  · rcases List.mem_map.mp h1 with ⟨p, hp, hpl⟩
    rw [← hpl] at hcl
    rcases List.mem_append.mp hcl with h2 | h2
    · by_cases hgt : p.2 > 1
      · rw [if_pos hgt] at h2
        rcases natDigitsAux_chars _ _ _ c h2 with h3 | h3
        · cases h3
        · exact Or.inr (Or.inr (Or.inl h3))
      · rw [if_neg hgt] at h2
        cases h2
    · exact Or.inr (Or.inr (Or.inr ⟨p, hp, h2⟩))

/-- Inside a successful balance, every rendered character is a space, a
plus, a digit, an arrow character, or a character of the input string;
in particular the rendered string contains no `=`. -/
theorem rendered_no_eq (s : List Char) (core : BalancedCore)
    (h : balanceCore s = .ok core) : ('=' : Char) ∉ core.rendered := by
  rcases balanceCore_ok_shape s core h with ⟨sys, cs, hb, _, hre, hpr, hrend⟩
  rcases buildSystem_ok_shape s sys hb with ⟨ls, rs, hsp, hfr, hfp, _, _⟩
  have hside : ∀ (side : List Char) (pairs : List (List Char × ℤ))
      (names : List (List Char × Counts)) (w : List ℤ),
      parseForms (sideNames side) = some names →
      pairs = List.zip (names.map Prod.fst) w →
      side ∈ splitOnChar '=' s → ('=' : Char) ∉ renderSide pairs := by
    intro side pairs names w hforms hzip hmem hin
    rcases renderSide_chars _ _ hin with h1 | h1 | h1 | ⟨p, hp, hcp⟩
    · exact absurd h1 (by decide)
    · exact absurd h1 (by decide)
    · exact absurd h1 (by decide)
    · have hfst : p.1 ∈ names.map Prod.fst := by
        rw [hzip] at hp
        exact (List.of_mem_zip (show (p.1, p.2) ∈ _ from hp)).1
      rw [parseForms_names _ _ hforms] at hfst
      have hsp2 : p.1 ∈ speciesOf side := dedupAux_subset _ _ _ hfst
      have : ('=' : Char) ∈ side := speciesOf_chars side p.1 hsp2 '=' hcp
      exact splitOnChar_not_mem '=' s side hmem this
  intro hmem
  rw [hrend] at hmem
  rcases List.mem_append.mp hmem with hmem | hmem
  · rcases List.mem_append.mp hmem with hmem | hmem
    · exact hside ls core.reacs sys.reacs (cs.take sys.reacs.length) hfr hre
        (by rw [hsp]; exact List.mem_cons_self _ _) hmem
    · exact absurd hmem (by decide)
  · exact hside rs core.prods sys.prods (cs.drop sys.reacs.length) hfp hpr
      (by rw [hsp]; exact List.mem_cons_of_mem _ (List.mem_cons_self _ _)) hmem



/-! ## C3: re-balancing the rendered balanced string -/

set_option maxRecDepth 40000 in
/-- C3 counterexample: balancing "H2 + O2 = H2O" succeeds, but feeding the
rendered balanced string it returns back into balance_equation does NOT
succeed — the rendering separates the sides with an arrow, not `=`, so
re-parsing fails instead of reproducing the coefficients. -/
theorem rebalance_rendered_counterexample :
    (balance_equation ("H2 + O2 = H2O").data).is_balanced = true ∧
    (balance_equation ((balance_equation ("H2 + O2 = H2O").data).balanced)).is_balanced
      = false := by
  decide

/-- C3 amended: for every equation that balance_equation successfully
balances, feeding the rendered balanced string back into balance_equation
always FAILS with a ParseError, because the rendering uses the arrow
separator (and the characters of a successful rendering — species text,
digits, spaces, plus signs, arrow — never include `=`). -/
theorem rebalance_rendered_fails (s : List Char)
    (h : (balance_equation s).is_balanced = true) :
    balance_equation ((balance_equation s).balanced) =
      ⟨(balance_equation s).balanced, (balance_equation s).balanced, [], [], false,
        some .parseError⟩ := by
  rcases hc : balanceCore s with e | core
  · exfalso
    rw [balance_equation_error s e hc] at h
    simp at h
  · have hbal : (balance_equation s).balanced = core.rendered := by
      unfold balance_equation
      rw [hc]
    rw [hbal]
    refine balance_equation_error _ _ (balanceCore_error_of_build _ _
      (buildSystem_count_ne_one _ ?_))
    rw [List.count_eq_zero.mpr (rendered_no_eq s core hc)]
    norm_num

set_option maxRecDepth 40000 in
/-- C3 witness: the amended theorem applied to the concrete balanced
equation. -/
theorem rebalance_rendered_fails_witness :
    balance_equation ((balance_equation ("H2 + O2 = H2O").data).balanced) =
      ⟨(balance_equation ("H2 + O2 = H2O").data).balanced,
       (balance_equation ("H2 + O2 = H2O").data).balanced, [], [], false,
       some .parseError⟩ :=
  rebalance_rendered_fails ("H2 + O2 = H2O").data (by decide)

/-! ## C8: stoichiometry with unit "g" -/

/-- C8 counterexample: at a concrete unit-"g" call the full returned
record is exhibited: target_amount is the plain mol-ratio value 4 and the
record is identical to the unit-"mol" record except for the echoed unit
string — nothing in the result flags it as approximate. -/
theorem stoich_gram_counterexample :
    calculate_stoichiometry ("H2 + O2 = H2O").data ("H2").data 4 ("H2O").data
        ("g").data =
      .ok ⟨("H2").data, 4, 2, ("H2O").data, 4, 2, 1, ("g").data⟩ ∧
    calculate_stoichiometry ("H2 + O2 = H2O").data ("H2").data 4 ("H2O").data
        ("mol").data =
      .ok ⟨("H2").data, 4, 2, ("H2O").data, 4, 2, 1, ("mol").data⟩ := by
  have hb : balanceCore ("H2 + O2 = H2O").data =
      .ok ⟨[(("H2").data, 2), (("O2").data, 1)], [(("H2O").data, 2)],
        ("2H2 + O2").data ++ arrowSep ++ ("2H2O").data⟩ := by
    set_option maxRecDepth 40000 in decide
  have key : ∀ u : List Char,
      calculate_stoichiometry ("H2 + O2 = H2O").data ("H2").data 4 ("H2O").data u =
        .ok ⟨("H2").data, 4, 2, ("H2O").data, 4, 2, 1, u⟩ := by
    intro u
    unfold calculate_stoichiometry
    rw [hb]
    show stoichOf _ ("H2").data 4 ("H2O").data u = _
    unfold stoichOf
    rw [show lookupCoef ⟨[(("H2").data, 2), (("O2").data, 1)], [(("H2O").data, 2)],
        ("2H2 + O2").data ++ arrowSep ++ ("2H2O").data⟩ ("H2").data = some 2 by decide]
    rw [show lookupCoef ⟨[(("H2").data, 2), (("O2").data, 1)], [(("H2O").data, 2)],
        ("2H2 + O2").data ++ arrowSep ++ ("2H2O").data⟩ ("H2O").data = some 2 by decide]
    show Except.ok (⟨("H2").data, 4, 2, ("H2O").data,
        pyRoundTo 4 (4 * (((2 : ℤ) : ℝ) / ((2 : ℤ) : ℝ))), 2,
        pyRoundTo 4 (((2 : ℤ) : ℝ) / ((2 : ℤ) : ℝ)), u⟩ : StoichResult) = _
    rw [show (((2 : ℤ) : ℝ) / ((2 : ℤ) : ℝ)) = 1 by norm_num]
    rw [show (4 : ℝ) * 1 = 4 by norm_num]
    rw [pyRoundTo_ofInt 4 40000 (4 : ℝ) (by norm_num),
      pyRoundTo_ofInt 4 10000 (1 : ℝ) (by norm_num)]
    norm_num
  exact ⟨key ("g").data, key ("mol").data⟩

/-- C8 amended: with unit "g" (no molar-mass data exists anywhere in the
engine) the operation does not fail: it returns the mol-based
approximation target = round4(given · target_coefficient/given_coefficient)
— but the result is NOT flagged as approximate; it is the identical record
the unit-"mol" call produces, except for the echoed unit string. -/
theorem stoich_gram_mol_approx :
    (∀ (eq gs : List Char) (ga : ℝ) (ts : List Char) (bal : BalancedCore) (gc tc : ℤ),
      balanceCore eq = .ok bal → lookupCoef bal gs = some gc →
      lookupCoef bal ts = some tc →
      calculate_stoichiometry eq gs ga ts ("g").data =
        .ok ⟨gs, ga, gc, ts, pyRoundTo 4 (ga * ((tc : ℝ) / (gc : ℝ))), tc,
          pyRoundTo 4 ((tc : ℝ) / (gc : ℝ)), ("g").data⟩) ∧
    (∀ (eq gs : List Char) (ga : ℝ) (ts u1 u2 : List Char),
      calculate_stoichiometry eq gs ga ts u1 =
        (calculate_stoichiometry eq gs ga ts u2).map (fun r => { r with unit := u1 })) := by
  constructor
  · intro eq gs ga ts bal gc tc hb hg ht
    unfold calculate_stoichiometry
    rw [hb]
    show stoichOf bal gs ga ts ("g").data = _
    unfold stoichOf
    rw [hg, ht]
  · intro eq gs ga ts u1 u2
    unfold calculate_stoichiometry
    cases balanceCore eq with
    | error e => rfl
    | ok bal =>
      show stoichOf bal gs ga ts u1 = (stoichOf bal gs ga ts u2).map _
      unfold stoichOf
      cases lookupCoef bal gs with
      | none =>
        cases lookupCoef bal ts with
        | none => rfl
        | some tc => rfl
      | some gc =>
        cases lookupCoef bal ts with
        | none => rfl
        | some tc => rfl

/-- C8 witness: the amended theorem applied at the concrete water
equation. -/
theorem stoich_gram_mol_approx_witness :
    calculate_stoichiometry ("H2 + O2 = H2O").data ("H2").data 4 ("H2O").data
        ("g").data =
      .ok ⟨("H2").data, 4, 2, ("H2O").data,
        pyRoundTo 4 (4 * (((2 : ℤ) : ℝ) / ((2 : ℤ) : ℝ))), 2,
        pyRoundTo 4 (((2 : ℤ) : ℝ) / ((2 : ℤ) : ℝ)), ("g").data⟩ :=
  stoich_gram_mol_approx.1 ("H2 + O2 = H2O").data ("H2").data 4 ("H2O").data
    ⟨[(("H2").data, 2), (("O2").data, 1)], [(("H2O").data, 2)],
      ("2H2 + O2").data ++ arrowSep ++ ("2H2O").data⟩ 2 2
    (by set_option maxRecDepth 40000 in decide) (by decide) (by decide)



/-! ## C1 development, stage 1: fraction denotation and dot-product lemmas -/

theorem val_fz : fz.val = 0 := by
  show ((0 : ℤ) : ℚ) / ((1 : ℤ) : ℚ) = 0
  norm_num

theorem val_fone : fone.val = 1 := by
  show ((1 : ℤ) : ℚ) / ((1 : ℤ) : ℚ) = 1
  norm_num

theorem val_fofInt (z : ℤ) : (fofInt z).val = (z : ℚ) := by
  show (z : ℚ) / ((1 : ℤ) : ℚ) = (z : ℚ)
  norm_num

theorem val_fmul (a b : Frac) : (fmul a b).val = a.val * b.val := by
  show ((a.num * b.num : ℤ) : ℚ) / ((a.den * b.den : ℤ) : ℚ) =
    (a.num : ℚ) / (a.den : ℚ) * ((b.num : ℚ) / (b.den : ℚ))
  push_cast
  rw [div_mul_div_comm]

theorem val_fneg (a : Frac) : (fneg a).val = -a.val := by
  show ((-a.num : ℤ) : ℚ) / ((a.den : ℤ) : ℚ) = -((a.num : ℚ) / (a.den : ℚ))
  push_cast
  rw [neg_div]

theorem val_fsub (a b : Frac) : (fsub a b).val = a.val - b.val := by
  have ha : ((a.den : ℤ) : ℚ) ≠ 0 := Int.cast_ne_zero.mpr a.2
  have hb : ((b.den : ℤ) : ℚ) ≠ 0 := Int.cast_ne_zero.mpr b.2
  show ((a.num * b.den - b.num * a.den : ℤ) : ℚ) / ((a.den * b.den : ℤ) : ℚ) =
    (a.num : ℚ) / (a.den : ℚ) - (b.num : ℚ) / (b.den : ℚ)
  field_simp
  ring

theorem val_finv (a : Frac) (h : a.num ≠ 0) : (finv a h).val = a.val⁻¹ := by
  show ((a.den : ℤ) : ℚ) / ((a.num : ℤ) : ℚ) = ((a.num : ℚ) / (a.den : ℚ))⁻¹
  rw [inv_div]

theorem val_ne_zero (a : Frac) (h : a.num ≠ 0) : a.val ≠ 0 :=
  div_ne_zero (Int.cast_ne_zero.mpr h) (Int.cast_ne_zero.mpr a.2)

theorem val_eq_zero (a : Frac) (h : a.num = 0) : a.val = 0 := by
  show ((a.num : ℤ) : ℚ) / ((a.den : ℤ) : ℚ) = 0
  rw [h]
  norm_num

theorem dotQ_nil_left (x : List ℚ) : dotQ [] x = 0 := by
  cases x <;> rfl

theorem dotQ_nil_right (a : List ℚ) : dotQ a [] = 0 := by
  cases a <;> rfl

theorem dotQ_cons (a : ℚ) (as : List ℚ) (b : ℚ) (bs : List ℚ) :
    dotQ (a :: as) (b :: bs) = a * b + dotQ as bs := rfl

theorem dotZ_nil_left (x : List ℤ) : dotZ [] x = 0 := by
  cases x <;> rfl

theorem dotZ_nil_right (a : List ℤ) : dotZ a [] = 0 := by
  cases a <;> rfl

theorem dotZ_cons (a : ℤ) (as : List ℤ) (b : ℤ) (bs : List ℤ) :
    dotZ (a :: as) (b :: bs) = a * b + dotZ as bs := rfl

theorem dotQ_sub (s : List ℚ) : ∀ (t x : List ℚ), s.length = t.length →
    dotQ (List.zipWith (fun a b => a - b) s t) x = dotQ s x - dotQ t x := by
  induction s with
  | nil =>
    intro t x h
    cases t with
    | nil => simp [dotQ_nil_left]
    | cons b bs => simp at h
  | cons a as ih =>
    intro t x h
    cases t with
    | nil => simp at h
    | cons b bs =>
      cases x with
      | nil => simp [dotQ_nil_right]
      | cons c cs =>
        rw [List.zipWith_cons_cons, dotQ_cons, dotQ_cons, dotQ_cons,
          ih bs cs (by simpa using h)]
        ring

theorem dotQ_smul (c : ℚ) : ∀ (t x : List ℚ),
    dotQ (t.map (fun a => c * a)) x = c * dotQ t x := by
  intro t
  induction t with
  | nil => intro x; simp [dotQ_nil_left]
  | cons a as ih =>
    intro x
    cases x with
    | nil => simp [dotQ_nil_right]
    | cons b bs =>
      rw [List.map_cons, dotQ_cons, dotQ_cons, ih bs]
      ring

theorem dotQ_smul_right (c : ℚ) : ∀ (a x : List ℚ),
    dotQ a (x.map (fun q => c * q)) = c * dotQ a x := by
  intro a
  induction a with
  | nil => intro x; simp [dotQ_nil_left]
  | cons q qs ih =>
    intro x
    cases x with
    | nil => simp [dotQ_nil_right]
    | cons b bs =>
      rw [List.map_cons, dotQ_cons, dotQ_cons, ih bs]
      ring

theorem dotQ_zero_left : ∀ (a x : List ℚ), (∀ q ∈ a, q = 0) → dotQ a x = 0 := by
  intro a
  induction a with
  | nil => intro x _; exact dotQ_nil_left x
  | cons q qs ih =>
    intro x h
    cases x with
    | nil => exact dotQ_nil_right _
    | cons b bs =>
      rw [dotQ_cons, h q (List.mem_cons_self _ _),
        ih bs (fun r hr => h r (List.mem_cons_of_mem _ hr))]
      ring

theorem dotZ_append (a : List ℤ) : ∀ (b c d : List ℤ), a.length = c.length →
    dotZ (a ++ b) (c ++ d) = dotZ a c + dotZ b d := by
  induction a with
  | nil =>
    intro b c d h
    cases c with
    | nil => simp [dotZ_nil_left]
    | cons x xs => simp at h
  | cons x xs ih =>
    intro b c d h
    cases c with
    | nil => simp at h
    | cons y ys =>
      rw [List.cons_append, List.cons_append, dotZ_cons, dotZ_cons,
        ih b ys d (by simpa using h)]
      ring

theorem dotZ_neg_left : ∀ (a x : List ℤ), dotZ (a.map Neg.neg) x = -dotZ a x := by
  intro a
  induction a with
  | nil => intro x; simp [dotZ_nil_left]
  | cons q qs ih =>
    intro x
    cases x with
    | nil => simp [dotZ_nil_right]
    | cons b bs =>
      rw [List.map_cons, dotZ_cons, dotZ_cons, ih bs]
      ring

theorem dotZ_neg_right : ∀ (a x : List ℤ), dotZ a (x.map Neg.neg) = -dotZ a x := by
  intro a
  induction a with
  | nil => intro x; simp [dotZ_nil_left]
  | cons q qs ih =>
    intro x
    cases x with
    | nil => simp [dotZ_nil_right]
    | cons b bs =>
      rw [List.map_cons, dotZ_cons, dotZ_cons, ih bs]
      ring

theorem dotZ_cast (a : List ℤ) : ∀ b : List ℤ,
    ((dotZ a b : ℤ) : ℚ) =
      dotQ (a.map (fun z : ℤ => (z : ℚ))) (b.map (fun z : ℤ => (z : ℚ))) := by
  induction a with
  | nil => intro b; simp [dotZ_nil_left, dotQ_nil_left]
  | cons x xs ih =>
    intro b
    cases b with
    | nil => simp [dotZ_nil_right, dotQ_nil_right]
    | cons y ys =>
      rw [dotZ_cons, List.map_cons, List.map_cons, dotQ_cons, ← ih ys]
      push_cast
      ring

theorem rowVal_length (r : List Frac) : (rowVal r).length = r.length :=
  List.length_map _ _

theorem rowVal_getD (r : List Frac) (i : ℕ) :
    (rowVal r).getD i 0 = (getF r i).val := by
  unfold rowVal getF
  by_cases h : i < r.length
  · rw [List.getD_eq_getElem _ _ (by simpa using h), List.getD_eq_getElem _ _ h,
      List.getElem_map]
  · rw [List.getD_eq_default _ _ (by simpa using not_lt.mp h),
      List.getD_eq_default _ _ (not_lt.mp h), val_fz]

theorem rowVal_scaleRow (c : Frac) (r : List Frac) :
    rowVal (scaleRow c r) = (rowVal r).map (fun a => c.val * a) := by
  unfold scaleRow rowVal
  rw [List.map_map, List.map_map]
  congr 1
  funext a
  exact val_fmul c a

theorem rowVal_fofInt_row (row : List ℤ) :
    rowVal (row.map fofInt) = row.map (fun z : ℤ => (z : ℚ)) := by
  unfold rowVal
  rw [List.map_map]
  congr 1
  funext z
  exact val_fofInt z

theorem val_getF_scale (a : Frac) (r : List Frac) (i : ℕ) :
    (getF (scaleRow a r) i).val = a.val * (getF r i).val := by
  unfold getF scaleRow
  by_cases h : i < r.length
  · rw [List.getD_eq_getElem _ _ (by simpa using h), List.getD_eq_getElem _ _ h,
      List.getElem_map]
    exact val_fmul a _
  · rw [List.getD_eq_default _ _ (by simpa using not_lt.mp h),
      List.getD_eq_default _ _ (not_lt.mp h), val_fz]
    ring

theorem elimRow_length (j : ℕ) (p s : List Frac) (h : s.length = p.length) :
    (elimRow j p s).length = s.length := by
  unfold elimRow scaleRow
  rw [List.length_zipWith, List.length_map, ← h, min_self]

theorem getD_zipWith_fsub : ∀ (s t : List Frac) (i : ℕ), s.length = t.length →
    (List.zipWith fsub s t).getD i fz =
      if i < s.length then fsub (s.getD i fz) (t.getD i fz) else fz := by
  intro s
  induction s with
  | nil =>
    intro t i h
    cases t with
    | nil => simp
    | cons b bs => simp at h
  | cons a as ih =>
    intro t i h
    cases t with
    | nil => simp at h
    | cons b bs =>
      cases i with
      | zero => simp
      | succ i =>
        rw [List.zipWith_cons_cons]
        simp only [List.getD_cons_succ, List.length_cons]
        rw [ih bs i (by simpa using h)]
        by_cases hi : i < as.length
        · rw [if_pos hi, if_pos (by omega)]
        · rw [if_neg hi, if_neg (by omega)]

theorem val_getF_elim (j : ℕ) (p s : List Frac) (i : ℕ) (hlen : s.length = p.length) :
    (getF (elimRow j p s) i).val =
      (getF s i).val - (getF s j).val * (getF p i).val := by
  have hsl : s.length = (scaleRow (getF s j) p).length := by
    unfold scaleRow; rw [List.length_map, ← hlen]
  unfold elimRow
  show ((List.zipWith fsub s (scaleRow (getF s j) p)).getD i fz).val = _
  rw [getD_zipWith_fsub s _ i hsl]
  by_cases h : i < s.length
  · rw [if_pos h, val_fsub]
    congr 1
    exact val_getF_scale (getF s j) p i
  · rw [if_neg h, val_fz]
    unfold getF
    rw [List.getD_eq_default s fz (not_lt.mp h),
      List.getD_eq_default p fz (show p.length ≤ i by rw [← hlen]; exact not_lt.mp h),
      val_fz]
    ring

theorem dotQ_elimRow (j : ℕ) (p s : List Frac) (x : List ℚ) (hlen : s.length = p.length) :
    dotQ (rowVal (elimRow j p s)) x =
      dotQ (rowVal s) x - (getF s j).val * dotQ (rowVal p) x := by
  have hrv : rowVal (elimRow j p s) =
      List.zipWith (fun a b => a - b) (rowVal s) (rowVal (scaleRow (getF s j) p)) := by
    unfold elimRow rowVal
    rw [List.map_zipWith]
    rw [show (fun (a b : Frac) => (fsub a b).val) = (fun (a b : Frac) => a.val - b.val) by
      funext a b; exact val_fsub a b]
    rw [List.zipWith_map]
  rw [hrv, dotQ_sub _ _ _ (by
    rw [rowVal_length, rowVal_length]
    unfold scaleRow
    rw [List.length_map, hlen])]
  rw [rowVal_scaleRow, dotQ_smul]



/-! ## C1 development, stage 2: kernel preservation through elimination -/

theorem pickPivot_some (j : ℕ) : ∀ (l : List (List Frac)) (r : List Frac)
    (others : List (List Frac)), pickPivot j l = some (r, others) →
    (getF r j).num ≠ 0 ∧ l.Perm (r :: others) := by
  intro l
  induction l with
  | nil => intro r others h; exact absurd h (by simp [pickPivot])
  | cons s rest ih =>
    intro r others h
    unfold pickPivot at h
    by_cases hs : (getF s j).num ≠ 0
    · rw [if_pos hs] at h
      injection h with h
      obtain ⟨h1, h2⟩ := Prod.mk.injEq _ _ _ _ |>.mp h
      subst h1
      subst h2
      exact ⟨hs, List.Perm.refl _⟩
    · rw [if_neg hs] at h
      rcases hp : pickPivot j rest with _ | ⟨q, qs⟩
      · rw [hp] at h; exact absurd h (by simp)
      · rw [hp] at h
        injection h with h
        have h1 : q = r := congrArg Prod.fst h
        have h2 : s :: qs = others := congrArg Prod.snd h
        subst h1
        subst h2
        rcases ih q qs hp with ⟨hnum2, hperm2⟩
        refine ⟨hnum2, ?_⟩
        exact (hperm2.cons s).trans (List.Perm.swap q s qs)

theorem pickPivot_none (j : ℕ) : ∀ l : List (List Frac), pickPivot j l = none →
    ∀ r ∈ l, (getF r j).num = 0 := by
  intro l
  induction l with
  | nil => intro _ r hr; cases hr
  | cons s rest ih =>
    intro h r hr
    unfold pickPivot at h
    by_cases hs : (getF s j).num ≠ 0
    · rw [if_pos hs] at h; exact absurd h (by simp)
    · rw [if_neg hs] at h
      rcases List.mem_cons.mp hr with hr | hr
      · rw [hr]; exact not_not.mp hs
      · rcases hp : pickPivot j rest with _ | ⟨q, qs⟩
        · exact ih hp r hr
        · rw [hp] at h; exact absurd h (by simp)

theorem kerQ_perm (X Y : List (List Frac)) (h : X.Perm Y) (x : List ℚ) :
    KerQ X x ↔ KerQ Y x := by
  constructor <;> intro hk r hr
  · exact hk r (h.mem_iff.mpr hr)
  · exact hk r (h.mem_iff.mp hr)

theorem mem_rowsOf_newState_pivot (j : ℕ) (st : GState) (p : List Frac)
    (others : List (List Frac)) : p ∈ rowsOf (gaussNewState j st p others) := by
  unfold gaussNewState rowsOf
  refine List.mem_append_left _ ?_
  rw [List.map_append]
  exact List.mem_append_right _ (by simp)

theorem mem_rowsOf_newState_done (j : ℕ) (st : GState) (p : List Frac)
    (others : List (List Frac)) (rc : List Frac × ℕ) (hrc : rc ∈ st.done) :
    elimRow j p rc.1 ∈ rowsOf (gaussNewState j st p others) := by
  unfold gaussNewState rowsOf
  refine List.mem_append_left _ ?_
  rw [List.map_append]
  refine List.mem_append_left _ ?_
  rw [List.map_map]
  exact List.mem_map_of_mem _ hrc

theorem mem_rowsOf_newState_rest (j : ℕ) (st : GState) (p : List Frac)
    (others : List (List Frac)) (o : List Frac) (ho : o ∈ others) :
    elimRow j p o ∈ rowsOf (gaussNewState j st p others) :=
  List.mem_append_right _ (List.mem_map_of_mem _ ho)

theorem rowsOf_newState_cases (j : ℕ) (st : GState) (p : List Frac)
    (others : List (List Frac)) (s : List Frac)
    (hs : s ∈ rowsOf (gaussNewState j st p others)) :
    (∃ rc ∈ st.done, s = elimRow j p rc.1) ∨ s = p ∨ ∃ o ∈ others, s = elimRow j p o := by
  unfold gaussNewState rowsOf at hs
  rcases List.mem_append.mp hs with hs | hs
  · rw [List.map_append, List.map_map] at hs
    rcases List.mem_append.mp hs with hs | hs
    · rcases List.mem_map.mp hs with ⟨rc, hrc, heq⟩
      exact Or.inl ⟨rc, hrc, heq.symm⟩
    · rw [List.map_singleton, List.mem_singleton] at hs
      exact Or.inr (Or.inl hs)
  · rcases List.mem_map.mp hs with ⟨o, ho, heq⟩
    exact Or.inr (Or.inr ⟨o, ho, heq.symm⟩)

theorem gaussStep_lengths (n j : ℕ) (st : GState)
    (hlen : ∀ r ∈ rowsOf st, r.length = n) :
    ∀ r ∈ rowsOf (gaussStep j st), r.length = n := by
  unfold gaussStep
  rcases hp : pickPivot j st.rest with _ | ⟨r0, others⟩
  · exact hlen
  · obtain ⟨hnum, hperm⟩ := pickPivot_some j st.rest r0 others hp
    show ∀ r ∈ rowsOf (gaussPivStep j st r0 others), r.length = n
    unfold gaussPivStep
    rw [dif_pos hnum]
    intro r hr
    have hr0len : r0.length = n :=
      hlen r0 (List.mem_append_right _ (hperm.mem_iff.mpr (List.mem_cons_self _ _)))
    have hplen : (scaleRow (finv (getF r0 j) hnum) r0).length = n := by
      unfold scaleRow; rw [List.length_map]; exact hr0len
    rcases rowsOf_newState_cases j st _ others r hr with ⟨rc, hrc, heq⟩ | heq | ⟨o, ho, heq⟩
    · have hlen2 : rc.1.length = n :=
        hlen rc.1 (List.mem_append_left _ (List.mem_map_of_mem _ hrc))
      rw [heq, elimRow_length _ _ _ (by rw [hlen2, hplen]), hlen2]
    · rw [heq]; exact hplen
    · have holen : o.length = n := hlen o (List.mem_append_right _
        (hperm.mem_iff.mpr (List.mem_cons_of_mem _ ho)))
      rw [heq, elimRow_length _ _ _ (by rw [holen, hplen]), holen]

theorem gaussStep_ker (n j : ℕ) (st : GState) (x : List ℚ)
    (hlen : ∀ r ∈ rowsOf st, r.length = n) :
    (KerQ (rowsOf (gaussStep j st)) x ↔ KerQ (rowsOf st) x) := by
  unfold gaussStep
  rcases hp : pickPivot j st.rest with _ | ⟨r0, others⟩
  · exact Iff.rfl
  · obtain ⟨hnum, hperm⟩ := pickPivot_some j st.rest r0 others hp
    show KerQ (rowsOf (gaussPivStep j st r0 others)) x ↔ _
    unfold gaussPivStep
    rw [dif_pos hnum]
    have hr0len : r0.length = n :=
      hlen r0 (List.mem_append_right _ (hperm.mem_iff.mpr (List.mem_cons_self _ _)))
    have hplen : (scaleRow (finv (getF r0 j) hnum) r0).length = n := by
      unfold scaleRow; rw [List.length_map]; exact hr0len
    have hpr0 : dotQ (rowVal (scaleRow (finv (getF r0 j) hnum) r0)) x =
        (getF r0 j).val⁻¹ * dotQ (rowVal r0) x := by
      rw [rowVal_scaleRow, dotQ_smul, val_finv]
    have hinvne : (getF r0 j).val⁻¹ ≠ 0 := inv_ne_zero (val_ne_zero _ hnum)
    constructor
    · intro hk s hs
      have hpdot : dotQ (rowVal (scaleRow (finv (getF r0 j) hnum) r0)) x = 0 :=
        hk _ (mem_rowsOf_newState_pivot j st _ others)
      have hr0dot : dotQ (rowVal r0) x = 0 := by
        rw [hpr0] at hpdot
        exact (mul_eq_zero.mp hpdot).resolve_left hinvne
      have helim : ∀ t : List Frac, t.length = n →
          dotQ (rowVal (elimRow j (scaleRow (finv (getF r0 j) hnum) r0) t)) x = 0 →
          dotQ (rowVal t) x = 0 := by
        intro t htlen hd
        rw [dotQ_elimRow _ _ _ _ (by rw [htlen, hplen]), hpr0, hr0dot] at hd
        have heq : dotQ (rowVal t) x - (getF t j).val * ((getF r0 j).val⁻¹ * 0) =
            dotQ (rowVal t) x := by ring
        rw [heq] at hd
        exact hd
      rcases List.mem_append.mp hs with hs | hs
      · rcases List.mem_map.mp hs with ⟨rc, hrc, hfst⟩
        have hlen2 : rc.1.length = n :=
          hlen rc.1 (List.mem_append_left _ (List.mem_map_of_mem _ hrc))
        rw [← hfst]
        exact helim rc.1 hlen2 (hk _ (mem_rowsOf_newState_done j st _ others rc hrc))
      · rcases List.mem_cons.mp (hperm.mem_iff.mp hs) with hsr | hso
        · rw [hsr]; exact hr0dot
        · exact helim s (hlen s (List.mem_append_right _ hs))
            (hk _ (mem_rowsOf_newState_rest j st _ others s hso))
    · intro hk s hs
      have hr0dot : dotQ (rowVal r0) x = 0 :=
        hk r0 (List.mem_append_right _ (hperm.mem_iff.mpr (List.mem_cons_self _ _)))
      have hpdot : dotQ (rowVal (scaleRow (finv (getF r0 j) hnum) r0)) x = 0 := by
        rw [hpr0, hr0dot]; ring
      have helim : ∀ t : List Frac, t.length = n → dotQ (rowVal t) x = 0 →
          dotQ (rowVal (elimRow j (scaleRow (finv (getF r0 j) hnum) r0) t)) x = 0 := by
        intro t htlen hd
        rw [dotQ_elimRow _ _ _ _ (by rw [htlen, hplen]), hd, hpr0, hr0dot]
        ring
      rcases rowsOf_newState_cases j st _ others s hs with ⟨rc, hrc, heq⟩ | heq | ⟨o, ho, heq⟩
      · have hlen2 : rc.1.length = n :=
          hlen rc.1 (List.mem_append_left _ (List.mem_map_of_mem _ hrc))
        have hd2 : dotQ (rowVal rc.1) x = 0 :=
          hk rc.1 (List.mem_append_left _ (List.mem_map_of_mem _ hrc))
        rw [heq]
        exact helim rc.1 hlen2 hd2
      · rw [heq]; exact hpdot
      · have holen : o.length = n := hlen o (List.mem_append_right _
          (hperm.mem_iff.mpr (List.mem_cons_of_mem _ ho)))
        have hd2 : dotQ (rowVal o) x = 0 :=
          hk o (List.mem_append_right _ (hperm.mem_iff.mpr (List.mem_cons_of_mem _ ho)))
        rw [heq]
        exact helim o holen hd2

theorem gaussFuel_lengths (f : ℕ) : ∀ (j n : ℕ) (st : GState),
    (∀ r ∈ rowsOf st, r.length = n) →
    ∀ r ∈ rowsOf (gaussFuel f j st), r.length = n := by
  induction f with
  | zero => intro j n st h; exact h
  | succ f ih =>
    intro j n st h
    exact ih (j + 1) n (gaussStep j st) (gaussStep_lengths n j st h)

theorem gaussFuel_ker (f : ℕ) : ∀ (j n : ℕ) (st : GState) (x : List ℚ),
    (∀ r ∈ rowsOf st, r.length = n) →
    (KerQ (rowsOf (gaussFuel f j st)) x ↔ KerQ (rowsOf st) x) := by
  induction f with
  | zero => intro j n st x _; exact Iff.rfl
  | succ f ih =>
    intro j n st x hlen
    show (KerQ (rowsOf (gaussFuel f (j + 1) (gaussStep j st))) x ↔ _)
    rw [ih (j + 1) n (gaussStep j st) x (gaussStep_lengths n j st hlen)]
    exact gaussStep_ker n j st x hlen



/-! ## C1 development, stage 3: the elimination invariant -/

theorem gaussNewState_inv (n j : ℕ) (st : GState) (r0 : List Frac)
    (others : List (List Frac)) (hinv : GInv n j st) (hnum : (getF r0 j).num ≠ 0)
    (hr0rest : r0 ∈ st.rest) (hothers : ∀ o ∈ others, o ∈ st.rest) :
    GInv n (j + 1) (gaussNewState j st (scaleRow (finv (getF r0 j) hnum) r0) others) := by
  have hr0len : r0.length = n := hinv.restLen r0 hr0rest
  have hplen : (scaleRow (finv (getF r0 j) hnum) r0).length = n := by
    unfold scaleRow; rw [List.length_map]; exact hr0len
  have hpj : (getF (scaleRow (finv (getF r0 j) hnum) r0) j).val = 1 := by
    rw [val_getF_scale, val_finv]
    exact inv_mul_cancel₀ (val_ne_zero _ hnum)
  have hpc : ∀ c, c < j → (getF (scaleRow (finv (getF r0 j) hnum) r0) c).val = 0 := by
    intro c hc
    rw [val_getF_scale, hinv.restZero r0 hr0rest c hc]
    ring
  have hev : ∀ t : List Frac, t.length = n → ∀ i,
      (getF (elimRow j (scaleRow (finv (getF r0 j) hnum) r0) t) i).val =
        (getF t i).val -
          (getF t j).val * (getF (scaleRow (finv (getF r0 j) hnum) r0) i).val :=
    fun t ht i => val_getF_elim j _ t i (by rw [ht, hplen])
  have hsnd : (((st.done.map (fun rc =>
      (elimRow j (scaleRow (finv (getF r0 j) hnum) r0) rc.1, rc.2))) ++
      [(scaleRow (finv (getF r0 j) hnum) r0, j)]).map Prod.snd) =
      st.done.map Prod.snd ++ [j] := by
    rw [List.map_append, List.map_map]
    rfl
  have hjnotpiv : j ∉ st.done.map Prod.snd := by
    intro hmem
    rcases List.mem_map.mp hmem with ⟨rc, hrc, heq⟩
    exact absurd (heq ▸ hinv.pivLt rc hrc) (lt_irrefl j)
  unfold gaussNewState
  refine ⟨?_, ?_, ?_, ?_, ?_, ?_, ?_, ?_, ?_, ?_⟩
  · -- doneLen
    intro rc hrc
    rcases List.mem_append.mp hrc with hrc | hrc
    · rcases List.mem_map.mp hrc with ⟨rc2, hrc2, heq⟩
      have := hinv.doneLen rc2 hrc2
      rw [← heq]
      show (elimRow j (scaleRow (finv (getF r0 j) hnum) r0) rc2.1).length = n
      rw [elimRow_length _ _ _ (by rw [this, hplen])]
      exact this
    · rw [List.mem_singleton] at hrc
      rw [hrc]
      exact hplen
  · -- restLen
    intro r hr
    rcases List.mem_map.mp hr with ⟨o, ho, heq⟩
    have holen := hinv.restLen o (hothers o ho)
    rw [← heq, elimRow_length _ _ _ (by rw [holen, hplen])]
    exact holen
  · -- pivLt
    intro rc hrc
    rcases List.mem_append.mp hrc with hrc | hrc
    · rcases List.mem_map.mp hrc with ⟨rc2, hrc2, heq⟩
      have := hinv.pivLt rc2 hrc2
      rw [← heq]
      exact Nat.lt_succ_of_lt this
    · rw [List.mem_singleton] at hrc
      rw [hrc]
      exact Nat.lt_succ_self j
  · -- freeLt
    intro c hc
    exact Nat.lt_succ_of_lt (hinv.freeLt c hc)
  · -- pivOne
    intro rc hrc
    rcases List.mem_append.mp hrc with hrc | hrc
    · rcases List.mem_map.mp hrc with ⟨rc2, hrc2, heq⟩
      rw [← heq]
      show (getF (elimRow j (scaleRow (finv (getF r0 j) hnum) r0) rc2.1) rc2.2).val = 1
      rw [hev rc2.1 (hinv.doneLen rc2 hrc2) rc2.2,
        hpc rc2.2 (hinv.pivLt rc2 hrc2), hinv.pivOne rc2 hrc2]
      ring
    · rw [List.mem_singleton] at hrc
      rw [hrc]
      exact hpj
  · -- pivZero
    intro rc hrc rc2 hrc2 hne
    rcases List.mem_append.mp hrc with hrc | hrc
    · rcases List.mem_map.mp hrc with ⟨a, ha, heqa⟩
      rcases List.mem_append.mp hrc2 with hrc2 | hrc2
      · rcases List.mem_map.mp hrc2 with ⟨b, hb, heqb⟩
        rw [← heqa, ← heqb]
        rw [← heqa, ← heqb] at hne
        show (getF (elimRow j (scaleRow (finv (getF r0 j) hnum) r0) a.1) b.2).val = 0
        rw [hev a.1 (hinv.doneLen a ha) b.2, hpc b.2 (hinv.pivLt b hb),
          hinv.pivZero a ha b hb hne]
        ring
      · rw [List.mem_singleton] at hrc2
        rw [← heqa, hrc2]
        show (getF (elimRow j (scaleRow (finv (getF r0 j) hnum) r0) a.1) j).val = 0
        rw [hev a.1 (hinv.doneLen a ha) j, hpj]
        ring
    · rw [List.mem_singleton] at hrc
      rcases List.mem_append.mp hrc2 with hrc2 | hrc2
      · rcases List.mem_map.mp hrc2 with ⟨b, hb, heqb⟩
        rw [hrc, ← heqb]
        exact hpc b.2 (hinv.pivLt b hb)
      · rw [List.mem_singleton] at hrc2
        rw [hrc, hrc2] at hne
        exact absurd rfl hne
  · -- restZero
    intro r hr c hc
    rcases List.mem_map.mp hr with ⟨o, ho, heq⟩
    have holen := hinv.restLen o (hothers o ho)
    rw [← heq, hev o holen c]
    rcases Nat.lt_succ_iff_lt_or_eq.mp hc with hc | hc
    · rw [hinv.restZero o (hothers o ho) c hc, hpc c hc]
      ring
    · rw [hc, hpj]
      ring
  · -- cover
    intro c hc
    rcases Nat.lt_succ_iff_lt_or_eq.mp hc with hc | hc
    · rcases hinv.cover c hc with h | h
      · exact Or.inl h
      · refine Or.inr ?_
        rw [hsnd]
        exact List.mem_append_left _ h
    · refine Or.inr ?_
      rw [hsnd, hc]
      exact List.mem_append_right _ (by simp)
  · -- pivNodup
    rw [hsnd]
    rw [List.nodup_append]
    exact ⟨hinv.pivNodup, List.nodup_singleton j,
      fun a ha => by simp only [List.mem_singleton]; intro hb; rw [hb] at ha; exact hjnotpiv ha⟩
  · -- freeNotPiv
    intro c hc
    rw [hsnd]
    intro hmem
    rcases List.mem_append.mp hmem with hmem | hmem
    · exact hinv.freeNotPiv c hc hmem
    · rw [List.mem_singleton] at hmem
      exact absurd (hmem ▸ hinv.freeLt c hc) (lt_irrefl j)

theorem gaussStep_inv (n j : ℕ) (st : GState) (hinv : GInv n j st) :
    GInv n (j + 1) (gaussStep j st) := by
  unfold gaussStep
  rcases hp : pickPivot j st.rest with _ | ⟨r0, others⟩
  · have hzero : ∀ r ∈ st.rest, (getF r j).num = 0 := pickPivot_none j st.rest hp
    refine ⟨hinv.doneLen, hinv.restLen, ?_, ?_, hinv.pivOne, hinv.pivZero, ?_, ?_,
      hinv.pivNodup, ?_⟩
    · exact fun rc h => Nat.lt_succ_of_lt (hinv.pivLt rc h)
    · intro c hc
      rcases List.mem_append.mp hc with hc | hc
      · exact Nat.lt_succ_of_lt (hinv.freeLt c hc)
      · rw [List.mem_singleton] at hc
        rw [hc]
        exact Nat.lt_succ_self j
    · intro r hr c hc
      rcases Nat.lt_succ_iff_lt_or_eq.mp hc with hc | hc
      · exact hinv.restZero r hr c hc
      · rw [hc]
        exact val_eq_zero _ (hzero r hr)
    · intro c hc
      rcases Nat.lt_succ_iff_lt_or_eq.mp hc with hc | hc
      · rcases hinv.cover c hc with h | h
        · exact Or.inl (List.mem_append_left _ h)
        · exact Or.inr h
      · refine Or.inl ?_
        rw [hc]
        exact List.mem_append_right _ (by simp)
    · intro c hc
      rcases List.mem_append.mp hc with hc | hc
      · exact hinv.freeNotPiv c hc
      · rw [List.mem_singleton] at hc
        intro hmem
        rcases List.mem_map.mp hmem with ⟨rc, hrc, heq⟩
        rw [hc] at heq
        exact absurd (heq ▸ hinv.pivLt rc hrc) (lt_irrefl j)
  · obtain ⟨hnum, hperm⟩ := pickPivot_some j st.rest r0 others hp
    show GInv n (j + 1) (gaussPivStep j st r0 others)
    unfold gaussPivStep
    rw [dif_pos hnum]
    exact gaussNewState_inv n j st r0 others hinv hnum
      (hperm.mem_iff.mpr (List.mem_cons_self _ _))
      (fun o ho => hperm.mem_iff.mpr (List.mem_cons_of_mem _ ho))

theorem gaussFuel_inv (f : ℕ) : ∀ (j n : ℕ) (st : GState), GInv n j st →
    GInv n (j + f) (gaussFuel f j st) := by
  induction f with
  | zero => intro j n st h; exact h
  | succ f ih =>
    intro j n st h
    have := ih (j + 1) n (gaussStep j st) (gaussStep_inv n j st h)
    show GInv n (j + (f + 1)) (gaussFuel f (j + 1) (gaussStep j st))
    rw [show j + (f + 1) = j + 1 + f by omega]
    exact this



/-! ## C1 development, stage 4: the kernel vector annihilates the final rows -/

theorem dotQ_eq_sum : ∀ a b : List ℚ, a.length = b.length →
    dotQ a b = ∑ i ∈ Finset.range a.length, a.getD i 0 * b.getD i 0 := by
  intro a
  induction a with
  | nil =>
    intro b h
    rw [dotQ_nil_left]
    simp
  | cons q qs ih =>
    intro b h
    cases b with
    | nil => simp at h
    | cons r rs =>
      rw [dotQ_cons, ih rs (by simpa using h)]
      simp only [List.length_cons]
      rw [Finset.sum_range_succ']
      simp only [List.getD_cons_succ, List.getD_cons_zero]
      ring

theorem kernelVec_length (n f : ℕ) (done : List (List Frac × ℕ)) :
    (kernelVec n f done).length = n := by
  unfold kernelVec
  rw [List.length_map, List.length_range]

theorem kernelVec_getF (n f : ℕ) (done : List (List Frac × ℕ)) (i : ℕ) (hi : i < n) :
    getF (kernelVec n f done) i =
      (if i = f then fone
       else
         match pivotLookup done i with
         | some rc => fneg (getF rc.1 f)
         | none => fz) := by
  unfold getF kernelVec
  rw [List.getD_eq_getElem _ _ (by rw [List.length_map, List.length_range]; exact hi),
    List.getElem_map, List.getElem_range]
  rfl

theorem pivotLookup_mem (done : List (List Frac × ℕ)) (c : ℕ) (rc : List Frac × ℕ)
    (h : pivotLookup done c = some rc) : rc ∈ done ∧ rc.2 = c := by
  unfold pivotLookup at h
  refine ⟨List.mem_of_find?_eq_some h, ?_⟩
  have := List.find?_some h
  simpa using this

theorem pivotLookup_of_mem (done : List (List Frac × ℕ)) (c : ℕ)
    (h : c ∈ done.map Prod.snd) : ∃ rc, pivotLookup done c = some rc := by
  rcases List.mem_map.mp h with ⟨rc, hrc, heq⟩
  have hs : (pivotLookup done c).isSome := by
    unfold pivotLookup
    rw [List.find?_isSome]
    exact ⟨rc, hrc, by simp [heq]⟩
  exact Option.isSome_iff_exists.mp hs

theorem final_ker (n f : ℕ) (st : GState) (hinv : GInv n n st)
    (hfree : st.freeCols = [f]) :
    KerQ (rowsOf st) (rowVal (kernelVec n f st.done)) := by
  have hf : f ∈ st.freeCols := by rw [hfree]; exact List.mem_singleton.mpr rfl
  have hfn : f < n := hinv.freeLt f hf
  have hfnotpiv : f ∉ st.done.map Prod.snd := hinv.freeNotPiv f hf
  intro r hr
  rcases List.mem_append.mp hr with hr | hr
  · rcases List.mem_map.mp hr with ⟨rc, hrc, heq⟩
    subst heq
    have hlen : (Prod.fst rc : List Frac).length = n := hinv.doneLen rc hrc
    have hcpiv : Prod.snd rc < n := hinv.pivLt rc hrc
    have hfc : f ≠ Prod.snd rc := by
      intro h
      exact hfnotpiv (h ▸ List.mem_map.mpr ⟨rc, hrc, rfl⟩)
    have hsub : ({f, Prod.snd rc} : Finset ℕ) ⊆ Finset.range n := by
      intro i hi
      rcases Finset.mem_insert.mp hi with h | h
      · rw [h]; exact Finset.mem_range.mpr hfn
      · rw [Finset.mem_singleton.mp h]; exact Finset.mem_range.mpr hcpiv
    have hvan : ∀ i ∈ Finset.range n, i ∉ ({f, Prod.snd rc} : Finset ℕ) →
        (rowVal rc.1).getD i 0 * (rowVal (kernelVec n f st.done)).getD i 0 = 0 := by
      intro i hi hni
      have hin : i < n := Finset.mem_range.mp hi
      have hif : i ≠ f := by
        intro h
        exact hni (by rw [h]; exact Finset.mem_insert_self f _)
      have hic : i ≠ Prod.snd rc := by
        intro h
        exact hni (by
          rw [h]
          exact Finset.mem_insert_of_mem (Finset.mem_singleton_self (Prod.snd rc)))
      rcases hinv.cover i hin with h | h
      · rw [hfree] at h
        exact absurd (List.mem_singleton.mp h) hif
      · obtain ⟨rc2, hrc2⟩ := pivotLookup_of_mem st.done i h
        obtain ⟨hrc2mem, hrc2snd⟩ := pivotLookup_mem st.done i rc2 hrc2
        rw [rowVal_getD]
        have hz : (getF rc.1 i).val = 0 := by
          rw [← hrc2snd]
          exact hinv.pivZero rc hrc rc2 hrc2mem (by rw [hrc2snd]; exact Ne.symm hic)
        rw [hz, zero_mul]
    have hFf : (rowVal rc.1).getD f 0 * (rowVal (kernelVec n f st.done)).getD f 0 =
        (getF rc.1 f).val := by
      rw [rowVal_getD, rowVal_getD, kernelVec_getF n f st.done f hfn, if_pos rfl, val_fone,
        mul_one]
    have hFc : (rowVal rc.1).getD (Prod.snd rc) 0 *
        (rowVal (kernelVec n f st.done)).getD (Prod.snd rc) 0 = -(getF rc.1 f).val := by
      rw [rowVal_getD, rowVal_getD, kernelVec_getF n f st.done (Prod.snd rc) hcpiv,
        if_neg (Ne.symm hfc)]
      obtain ⟨rc2, hrc2⟩ := pivotLookup_of_mem st.done (Prod.snd rc)
        (List.mem_map.mpr ⟨rc, hrc, rfl⟩)
      obtain ⟨hrc2mem, hrc2snd⟩ := pivotLookup_mem st.done (Prod.snd rc) rc2 hrc2
      have hrc2eq : rc2 = rc :=
        List.inj_on_of_nodup_map hinv.pivNodup hrc2mem hrc (by rw [hrc2snd])
      rw [hrc2, hrc2eq]
      show (getF rc.1 (Prod.snd rc)).val * (fneg (getF rc.1 f)).val = -(getF rc.1 f).val
      rw [val_fneg, hinv.pivOne rc hrc, one_mul]
    rw [dotQ_eq_sum _ _
      (by rw [rowVal_length, rowVal_length, hlen, kernelVec_length])]
    rw [rowVal_length, hlen, ← Finset.sum_subset hsub hvan, Finset.sum_pair hfc, hFf, hFc]
    ring
  · refine dotQ_zero_left _ _ ?_
    intro q hq
    unfold rowVal at hq
    rcases List.mem_map.mp hq with ⟨a, ha, heq⟩
    rcases List.getElem_of_mem ha with ⟨i, hilt, hieq⟩
    have hgf : getF r i = a := by
      unfold getF
      rw [List.getD_eq_getElem _ _ hilt, hieq]
    rw [← heq, ← hgf]
    exact hinv.restZero r hr i (by rw [← hinv.restLen r hr]; exact hilt)



/-! ## C1 development, stage 5: integerisation and minimality -/

theorem denLcm_pos (x : List Frac) : 0 < denLcm x := by
  induction x with
  | nil => exact Nat.one_pos
  | cons q t ih =>
    show 0 < Nat.lcm q.den.natAbs (denLcm t)
    have h1 : q.den.natAbs ≠ 0 := Int.natAbs_ne_zero.mpr q.2
    exact Nat.pos_of_ne_zero (Nat.lcm_ne_zero h1 ih.ne')

theorem den_dvd_denLcm : ∀ (x : List Frac) (q : Frac), q ∈ x →
    q.den.natAbs ∣ denLcm x := by
  intro x
  induction x with
  | nil => intro q h; exact absurd h (List.not_mem_nil q)
  | cons a t ih =>
    intro q h
    rcases List.mem_cons.mp h with h | h
    · rw [h]
      exact Nat.dvd_lcm_left _ _
    · exact Nat.dvd_trans (ih q h) (Nat.dvd_lcm_right _ _)

theorem den_dvd_denLcm_int (x : List Frac) (q : Frac) (h : q ∈ x) :
    q.den ∣ ((denLcm x : ℕ) : ℤ) :=
  Int.natAbs_dvd.mp (Int.natCast_dvd_natCast.mpr (den_dvd_denLcm x q h))

theorem intOfFrac_val (L : ℕ) (q : Frac) (h : q.den ∣ (L : ℤ)) :
    ((intOfFrac L q : ℤ) : ℚ) = (L : ℚ) * q.val := by
  obtain ⟨k, hk⟩ := h
  unfold intOfFrac Frac.val
  have hd0 : q.den ≠ 0 := q.2
  rw [hk, Int.mul_ediv_cancel_left _ hd0]
  have hden : ((q.den : ℤ) : ℚ) ≠ 0 := Int.cast_ne_zero.mpr q.2
  have hLQ : (L : ℚ) = ((q.den : ℤ) : ℚ) * ((k : ℤ) : ℚ) := by
    rw [← Int.cast_mul, ← hk]
    simp
  rw [hLQ]
  push_cast
  field_simp
  ring

theorem gcdL_dvd : ∀ (l : List ℤ) (z : ℤ), z ∈ l → ((gcdL l : ℕ) : ℤ) ∣ z := by
  intro l
  induction l with
  | nil => intro z h; exact absurd h (List.not_mem_nil z)
  | cons a t ih =>
    intro z h
    rcases List.mem_cons.mp h with h | h
    · rw [h]
      show ((Int.gcd a ((gcdL t : ℕ) : ℤ) : ℕ) : ℤ) ∣ a
      exact Int.gcd_dvd_left
    · refine dvd_trans ?_ (ih z h)
      show ((Int.gcd a ((gcdL t : ℕ) : ℤ) : ℕ) : ℤ) ∣ ((gcdL t : ℕ) : ℤ)
      exact Int.gcd_dvd_right

theorem gcdL_eq_zero (l : List ℤ) (h : gcdL l = 0) : ∀ z ∈ l, z = 0 := by
  intro z hz
  have hd := gcdL_dvd l z hz
  rw [h] at hd
  exact zero_dvd_iff.mp (by exact_mod_cast hd)

theorem gcdL_map_mul (d : ℤ) : ∀ l : List ℤ,
    gcdL (l.map (fun z => z * d)) = gcdL l * d.natAbs := by
  intro l
  induction l with
  | nil =>
    show (0 : ℕ) = 0 * d.natAbs
    rw [Nat.zero_mul]
  | cons a t ih =>
    show Int.gcd (a * d) ((gcdL (t.map (fun z => z * d)) : ℕ) : ℤ) =
      Int.gcd a ((gcdL t : ℕ) : ℤ) * d.natAbs
    rw [ih]
    show Nat.gcd (a * d).natAbs (((gcdL t * d.natAbs : ℕ) : ℤ)).natAbs =
      Nat.gcd a.natAbs (((gcdL t : ℕ) : ℤ)).natAbs * d.natAbs
    rw [Int.natAbs_mul, Int.natAbs_ofNat, Int.natAbs_ofNat, Nat.gcd_mul_right]

theorem gcdL_map_neg : ∀ l : List ℤ, gcdL (l.map Neg.neg) = gcdL l := by
  intro l
  induction l with
  | nil => rfl
  | cons a t ih =>
    show Int.gcd (-a) ((gcdL (t.map Neg.neg) : ℕ) : ℤ) = Int.gcd a ((gcdL t : ℕ) : ℤ)
    rw [ih, Int.neg_gcd]

theorem dotZ_mul_right (c : ℤ) : ∀ (a x : List ℤ),
    dotZ a (x.map (fun z => z * c)) = c * dotZ a x := by
  intro a
  induction a with
  | nil => intro x; simp [dotZ_nil_left]
  | cons q qs ih =>
    intro x
    cases x with
    | nil => simp [dotZ_nil_right]
    | cons b bs =>
      rw [List.map_cons, dotZ_cons, dotZ_cons, ih bs]
      ring

theorem getD_map_intOfFrac (L : ℕ) (x : List Frac) (i : ℕ) (hi : i < x.length) :
    (x.map (intOfFrac L)).getD i 0 = intOfFrac L (getF x i) := by
  unfold getF
  rw [List.getD_eq_getElem _ _ (by rw [List.length_map]; exact hi),
    List.getD_eq_getElem _ _ hi, List.getElem_map]

theorem map_cast_scaledInts (x : List Frac) :
    (scaledInts x).map (fun z : ℤ => (z : ℚ)) =
      (rowVal x).map (fun q => ((denLcm x : ℕ) : ℚ) * q) := by
  unfold scaledInts rowVal
  rw [List.map_map, List.map_map]
  refine List.map_congr_left ?_
  intro q hq
  show ((intOfFrac (denLcm x) q : ℤ) : ℚ) = ((denLcm x : ℕ) : ℚ) * q.val
  exact intOfFrac_val (denLcm x) q (den_dvd_denLcm_int x q hq)

theorem primitive_mul_gcd (x : List Frac) :
    (primitiveVec x).map (fun z => z * ((gcdL (scaledInts x) : ℕ) : ℤ)) = scaledInts x := by
  unfold primitiveVec
  rw [List.map_map]
  have h : ∀ z ∈ scaledInts x,
      ((fun z => z * ((gcdL (scaledInts x) : ℕ) : ℤ)) ∘
        (fun z => z / ((gcdL (scaledInts x) : ℕ) : ℤ))) z = id z := by
    intro z hz
    exact Int.ediv_mul_cancel (gcdL_dvd (scaledInts x) z hz)
  rw [List.map_congr_left h, List.map_id]

theorem gcdL_primitive (x : List Frac) (hg : gcdL (scaledInts x) ≠ 0) :
    gcdL (primitiveVec x) = 1 := by
  have h := gcdL_map_mul ((gcdL (scaledInts x) : ℕ) : ℤ) (primitiveVec x)
  rw [primitive_mul_gcd, Int.natAbs_ofNat] at h
  exact Nat.eq_of_mul_eq_mul_right (Nat.pos_of_ne_zero hg)
    (by rw [one_mul]; exact h.symm)



/-! ## C1 development, stage 6: correctness of `solveCoeffs` -/

theorem signFixed_length (c : List ℤ) : (signFixed c).length = c.length := by
  unfold signFixed
  split
  · rw [List.length_map]
  · rfl

theorem gcdL_signFixed (c : List ℤ) : gcdL (signFixed c) = gcdL c := by
  unfold signFixed
  split
  · exact gcdL_map_neg c
  · rfl

theorem dotZ_signFixed_zero (row c : List ℤ) (h : dotZ row c = 0) :
    dotZ row (signFixed c) = 0 := by
  unfold signFixed
  split
  · rw [dotZ_neg_right, h, neg_zero]
  · exact h

/-- On success, `solveCoeffs` returns a vector of the full width that
annihilates every matrix row, has coprime entries, and is entirely
positive. -/
theorem solveCoeffs_ok (mat : List (List ℤ)) (n : ℕ) (cs : List ℤ)
    (hok : solveCoeffs mat n = .ok cs)
    (hlen : ∀ row ∈ mat, row.length = n) :
    cs.length = n ∧ gcdL cs = 1 ∧ (∀ z ∈ cs, 0 < z) ∧
      ∀ row ∈ mat, dotZ row cs = 0 := by
  have hinv0 : GInv n 0 ⟨[], mat.map (fun row => row.map fofInt), []⟩ := by
    refine ⟨?_, ?_, ?_, ?_, ?_, ?_, ?_, ?_, ?_, ?_⟩
    · intro rc hrc; exact absurd hrc (List.not_mem_nil rc)
    · intro r hr
      rcases List.mem_map.mp hr with ⟨row, hrow, heq⟩
      rw [← heq, List.length_map]
      exact hlen row hrow
    · intro rc hrc; exact absurd hrc (List.not_mem_nil rc)
    · intro c hc; exact absurd hc (List.not_mem_nil c)
    · intro rc hrc; exact absurd hrc (List.not_mem_nil rc)
    · intro rc hrc; exact absurd hrc (List.not_mem_nil rc)
    · intro r _ c hc; exact absurd hc (Nat.not_lt_zero c)
    · intro c hc; exact absurd hc (Nat.not_lt_zero c)
    · exact List.nodup_nil
    · intro c hc; exact absurd hc (List.not_mem_nil c)
  have hinvN : GInv n n (runGauss mat n) := by
    have h := gaussFuel_inv n 0 n ⟨[], mat.map (fun row => row.map fofInt), []⟩ hinv0
    rw [Nat.zero_add] at h
    exact h
  unfold solveCoeffs at hok
  split at hok
  · exact Except.noConfusion hok
  · rename_i f hfree
    split at hok
    · rename_i hpos
      injection hok with hcs
      have hfmem : f ∈ (runGauss mat n).freeCols := by
        rw [hfree]
        exact List.mem_singleton.mpr rfl
      have hfn : f < n := hinvN.freeLt f hfmem
      have hkvlen : (kernelVec n f (runGauss mat n).done).length = n := kernelVec_length n f _
      have hgetf : getF (kernelVec n f (runGauss mat n).done) f = fone := by
        rw [kernelVec_getF n f _ f hfn, if_pos rfl]
      have hentry : (scaledInts (kernelVec n f (runGauss mat n).done)).getD f 0 =
          ((denLcm (kernelVec n f (runGauss mat n).done) : ℕ) : ℤ) := by
        unfold scaledInts
        rw [getD_map_intOfFrac _ _ f (by rw [hkvlen]; exact hfn), hgetf]
        show (1 : ℤ) * (((denLcm (kernelVec n f (runGauss mat n).done) : ℕ) : ℤ) / 1) = _
        rw [Int.ediv_one, one_mul]
      have hglen : (scaledInts (kernelVec n f (runGauss mat n).done)).length = n := by
        unfold scaledInts
        rw [List.length_map, hkvlen]
      have hmementry : (scaledInts (kernelVec n f (runGauss mat n).done)).getD f 0 ∈
          scaledInts (kernelVec n f (runGauss mat n).done) := by
        rw [List.getD_eq_getElem _ _ (by rw [hglen]; exact hfn)]
        exact List.getElem_mem _
      have hgne : gcdL (scaledInts (kernelVec n f (runGauss mat n).done)) ≠ 0 := by
        intro h0
        have h1 := gcdL_eq_zero _ h0 _ hmementry
        rw [hentry] at h1
        have h2 : denLcm (kernelVec n f (runGauss mat n).done) = 0 := by exact_mod_cast h1
        exact absurd h2 (denLcm_pos _).ne'
      have hgcd1 : gcdL cs = 1 := by
        rw [← hcs, gcdL_signFixed]
        exact gcdL_primitive _ hgne
      have hlencs : cs.length = n := by
        rw [← hcs, signFixed_length]
        unfold primitiveVec
        rw [List.length_map, hglen]
      have hposall : ∀ z ∈ cs, 0 < z := by
        intro z hz
        rw [← hcs] at hz
        exact of_decide_eq_true (List.all_eq_true.mp hpos z hz)
      have hker := final_ker n f (runGauss mat n) hinvN hfree
      have hlen0 : ∀ r ∈ rowsOf ⟨[], mat.map (fun row => row.map fofInt), []⟩,
          r.length = n := by
        intro r hr
        have hr2 : r ∈ mat.map (fun row => row.map fofInt) := hr
        rcases List.mem_map.mp hr2 with ⟨row, hrow, heq⟩
        rw [← heq, List.length_map]
        exact hlen row hrow
      have hker0 : KerQ (rowsOf ⟨[], mat.map (fun row => row.map fofInt), []⟩)
          (rowVal (kernelVec n f (runGauss mat n).done)) :=
        (gaussFuel_ker n 0 n _ _ hlen0).mp hker
      refine ⟨hlencs, hgcd1, hposall, ?_⟩
      intro row hrow
      have hmem : (row.map fofInt) ∈ rowsOf ⟨[], mat.map (fun row => row.map fofInt), []⟩ := by
        show (row.map fofInt) ∈ mat.map (fun row => row.map fofInt)
        exact List.mem_map.mpr ⟨row, hrow, rfl⟩
      have hq := hker0 _ hmem
      rw [rowVal_fofInt_row] at hq
      have hq2 : dotQ (row.map (fun z : ℤ => (z : ℚ)))
          ((scaledInts (kernelVec n f (runGauss mat n).done)).map
            (fun z : ℤ => (z : ℚ))) = 0 := by
        rw [map_cast_scaledInts, dotQ_smul_right, hq, mul_zero]
      have hz1 : dotZ row (scaledInts (kernelVec n f (runGauss mat n).done)) = 0 := by
        have h := dotZ_cast row (scaledInts (kernelVec n f (runGauss mat n).done))
        rw [hq2] at h
        exact_mod_cast h
      have hz2 : dotZ row (primitiveVec (kernelVec n f (runGauss mat n).done)) = 0 := by
        have h := dotZ_mul_right
          ((gcdL (scaledInts (kernelVec n f (runGauss mat n).done)) : ℕ) : ℤ)
          row (primitiveVec (kernelVec n f (runGauss mat n).done))
        rw [primitive_mul_gcd, hz1] at h
        have hg0 : ((gcdL (scaledInts (kernelVec n f (runGauss mat n).done)) : ℕ) : ℤ) ≠ 0 := by
          exact_mod_cast hgne
        rcases mul_eq_zero.mp h.symm with h | h
        · exact absurd h hg0
        · exact h
      rw [← hcs]
      exact dotZ_signFixed_zero row _ hz2
    · exact Except.noConfusion hok
  · exact Except.noConfusion hok



/-! ## C1: the balancing invariant -/

/-- C1: for every equation string on which `balance_equation` succeeds
(`is_balanced = true`), the species names echo the parsed system's two
sides, the returned reactant and product coefficients are positive
integers, their combined vector has greatest common divisor 1 and
annihilates every row of the element × species matrix
(matrix · coefficients = 0 in exact integer arithmetic) — equivalently,
for every element of the equation the coefficient-weighted atom count
over the reactants equals that over the products.  (The balancing core is
modelled from spec §4.1–4.3, the chempy dependency being absent from the
source tree.) -/
theorem balance_equation_invariant (s : List Char)
    (hb : (balance_equation s).is_balanced = true) :
    ∃ sys : EqSystemZ, buildSystem s = .ok sys ∧
      (balance_equation s).reactants.map Prod.fst = sys.reacs.map Prod.fst ∧
      (balance_equation s).products.map Prod.fst = sys.prods.map Prod.fst ∧
      (∀ p ∈ (balance_equation s).reactants, 0 < p.2) ∧
      (∀ p ∈ (balance_equation s).products, 0 < p.2) ∧
      gcdL ((balance_equation s).reactants.map Prod.snd ++
        (balance_equation s).products.map Prod.snd) = 1 ∧
      (∀ row ∈ sys.matrix,
        dotZ row ((balance_equation s).reactants.map Prod.snd ++
          (balance_equation s).products.map Prod.snd) = 0) ∧
      ∀ e ∈ sys.elems,
        dotZ (sys.reacs.map (fun p => (countIn p.2 e : ℤ)))
            ((balance_equation s).reactants.map Prod.snd) =
          dotZ (sys.prods.map (fun p => (countIn p.2 e : ℤ)))
            ((balance_equation s).products.map Prod.snd) := by
  rcases hc : balanceCore s with e | core
  · rw [balance_equation_error s e hc] at hb
    simp at hb
  · have heq : balance_equation s = ⟨s, core.rendered, core.reacs, core.prods, true, none⟩ := by
      unfold balance_equation
      rw [hc]
    obtain ⟨sys, cs, hbuild, hsolve, hreacs, hprods, hrend⟩ := balanceCore_ok_shape s core hc
    obtain ⟨ls, rs, hsplit, hpr, hpp, helems, hmatrix⟩ := buildSystem_ok_shape s sys hbuild
    have hrowlen : ∀ row ∈ sys.matrix, row.length = sys.reacs.length + sys.prods.length := by
      intro row hrow
      rw [hmatrix] at hrow
      rcases List.mem_map.mp hrow with ⟨el, hel, heqr⟩
      rw [← heqr]
      unfold rowFor
      rw [List.length_append, List.length_map, List.length_map]
    obtain ⟨hcslen, hgcd, hpos, hdot⟩ := solveCoeffs_ok sys.matrix _ cs hsolve hrowlen
    have htklen : (cs.take sys.reacs.length).length = sys.reacs.length := by
      rw [List.length_take, hcslen]
      exact Nat.min_eq_left (Nat.le_add_right _ _)
    have hdplen : (cs.drop sys.reacs.length).length = sys.prods.length := by
      rw [List.length_drop, hcslen]
      omega
    have hrsnd : core.reacs.map Prod.snd = cs.take sys.reacs.length := by
      rw [hreacs]
      exact List.map_snd_zip _ _ (by rw [htklen, List.length_map])
    have hrfst : core.reacs.map Prod.fst = sys.reacs.map Prod.fst := by
      rw [hreacs]
      exact List.map_fst_zip _ _ (by rw [List.length_map, htklen])
    have hpsnd : core.prods.map Prod.snd = cs.drop sys.reacs.length := by
      rw [hprods]
      exact List.map_snd_zip _ _ (by rw [hdplen, List.length_map])
    have hpfst : core.prods.map Prod.fst = sys.prods.map Prod.fst := by
      rw [hprods]
      exact List.map_fst_zip _ _ (by rw [List.length_map, hdplen])
    have happ : core.reacs.map Prod.snd ++ core.prods.map Prod.snd = cs := by
      rw [hrsnd, hpsnd, List.take_append_drop]
    simp only [heq]
    refine ⟨sys, hbuild, hrfst, hpfst, ?_, ?_, ?_, ?_, ?_⟩
    · intro p hp
      have hmem : p.2 ∈ core.reacs.map Prod.snd := List.mem_map.mpr ⟨p, hp, rfl⟩
      rw [hrsnd] at hmem
      exact hpos _ (List.mem_of_mem_take hmem)
    · intro p hp
      have hmem : p.2 ∈ core.prods.map Prod.snd := List.mem_map.mpr ⟨p, hp, rfl⟩
      rw [hpsnd] at hmem
      exact hpos _ (List.mem_of_mem_drop hmem)
    · rw [happ]
      exact hgcd
    · intro row hrow
      rw [happ]
      exact hdot row hrow
    · intro e he
      have hrowmem : rowFor sys.reacs sys.prods e ∈ sys.matrix := by
        rw [hmatrix]
        rw [helems] at he
        exact List.mem_map.mpr ⟨e, he, rfl⟩
      have hd := hdot _ hrowmem
      unfold rowFor at hd
      rw [← List.take_append_drop sys.reacs.length cs] at hd
      rw [dotZ_append _ _ _ _ (by rw [List.length_map, htklen])] at hd
      have hB : sys.prods.map (fun p => -(countIn p.2 e : ℤ)) =
          (sys.prods.map (fun p => (countIn p.2 e : ℤ))).map Neg.neg := by
        rw [List.map_map]
        rfl
      rw [hB, dotZ_neg_left] at hd
      rw [hrsnd, hpsnd]
      linarith

set_option maxRecDepth 80000 in
/-- C1 witness: the invariant instantiated on the concrete equation
"H2 + O2 = H2O", whose success is decided by evaluation. -/
theorem balance_equation_invariant_witness :
    (balance_equation ("H2 + O2 = H2O").data).is_balanced = true ∧
    (∃ sys : EqSystemZ, buildSystem ("H2 + O2 = H2O").data = .ok sys ∧
      (balance_equation ("H2 + O2 = H2O").data).reactants.map Prod.fst =
        sys.reacs.map Prod.fst ∧
      (balance_equation ("H2 + O2 = H2O").data).products.map Prod.fst =
        sys.prods.map Prod.fst ∧
      (∀ p ∈ (balance_equation ("H2 + O2 = H2O").data).reactants, 0 < p.2) ∧
      (∀ p ∈ (balance_equation ("H2 + O2 = H2O").data).products, 0 < p.2) ∧
      gcdL ((balance_equation ("H2 + O2 = H2O").data).reactants.map Prod.snd ++
        (balance_equation ("H2 + O2 = H2O").data).products.map Prod.snd) = 1 ∧
      (∀ row ∈ sys.matrix,
        dotZ row ((balance_equation ("H2 + O2 = H2O").data).reactants.map Prod.snd ++
          (balance_equation ("H2 + O2 = H2O").data).products.map Prod.snd) = 0) ∧
      ∀ e ∈ sys.elems,
        dotZ (sys.reacs.map (fun p => (countIn p.2 e : ℤ)))
            ((balance_equation ("H2 + O2 = H2O").data).reactants.map Prod.snd) =
          dotZ (sys.prods.map (fun p => (countIn p.2 e : ℤ)))
            ((balance_equation ("H2 + O2 = H2O").data).products.map Prod.snd)) :=
  ⟨by decide, balance_equation_invariant ("H2 + O2 = H2O").data (by decide)⟩


end ChmAI
